import Mathlib

/-!
Verification of the dz-mcp-memory core against its specification.

The TypeScript source is shallowly embedded: timestamps (`Date`) become `Nat`
milliseconds, JS strings become Lean `String` (text algorithms work on
`List Char`), the in-memory `Map`-backed store becomes a list of records in
insertion order, and fallible operations return `Except`.
-/

namespace DzMemory

/-- Whitespace test mirroring the JS regex class given backslash-s on the ASCII
range (space, tab, newline, carriage return, vertical tab, form feed). -/
def isWsChar (c : Char) : Bool :=
  c = ' ' || c = '\t' || c = '\n' || c = '\r' || c = Char.ofNat 11 || c = Char.ofNat 12

/-- ASCII uppercase letter test (the character class A-Z). -/
def isUpperChar (c : Char) : Bool :=
  'A' ≤ c && c ≤ 'Z'

/-- ASCII lowercase letter test (the character class a-z). -/
def isLowerChar (c : Char) : Bool :=
  'a' ≤ c && c ≤ 'z'

/-- Single-character case folding of JS `toLowerCase` on the ASCII range. -/
def jsLowerChar (c : Char) : Char :=
  if isUpperChar c then Char.ofNat (c.toNat + 32) else c

/-- Case folding of a character list, mirroring JS `String.prototype.toLowerCase`. -/
def lowerList (l : List Char) : List Char :=
  l.map jsLowerChar

/-- Case folding on strings, mirroring JS `String.prototype.toLowerCase`. -/
def jsToLower (s : String) : String :=
  ⟨lowerList s.data⟩

/-- Leading/trailing whitespace removal on character lists, mirroring JS
`String.prototype.trim`. -/
def trimList (l : List Char) : List Char :=
  ((l.dropWhile isWsChar).reverse.dropWhile isWsChar).reverse

/-- Trim on strings, mirroring JS `String.prototype.trim`. -/
def jsTrim (s : String) : String :=
  ⟨trimList s.data⟩

/-- Substring test: JS `String.prototype.includes` for `needle` inside `hay`,
expressed on the underlying character lists. -/
def containsSub (hay needle : String) : Bool :=
  decide (needle.data <:+: hay.data)

/-- Worker for `collapseWs`; `prevWs` records whether the previous character was
whitespace, so that a whitespace run is replaced by one single space. -/
def collapseWsAux : Bool → List Char → List Char
  | _, [] => []
  | prevWs, c :: rest =>
    if isWsChar c then
      if prevWs then collapseWsAux true rest
      else ' ' :: collapseWsAux true rest
    else c :: collapseWsAux false rest

/-- Replacement of every whitespace run by a single space: the JS
`text.replace` step with the global whitespace-run pattern in
`splitTextIntoChunks`. -/
def collapseWs (l : List Char) : List Char :=
  collapseWsAux false l

/-- Whitespace normalisation of `splitTextIntoChunks`: collapse whitespace runs
to single spaces, then trim. -/
def normalizeText (l : List Char) : List Char :=
  trimList (collapseWs l)

theorem dropWhile_length_le (p : Char → Bool) (l : List Char) :
    (l.dropWhile p).length ≤ l.length := by
  induction l with
  | nil => simp
  | cons c t ih =>
    by_cases h : p c
    · simp [List.dropWhile, h]; omega
    · simp [List.dropWhile, h]

theorem takeWhile_length_le (p : Char → Bool) (l : List Char) :
    (l.takeWhile p).length ≤ l.length := by
  induction l with
  | nil => simp
  | cons c t ih =>
    by_cases h : p c
    · simp [List.takeWhile, h]; omega
    · simp [List.takeWhile, h]

/-- Attempted match of the blank-line separator pattern (newline, whitespace
run, newline) at the head of the input; on success, returns the input that
remains after the greedily matched separator. -/
def blankMatch : List Char → Option (List Char)
  | [] => none
  | c :: rest =>
    if c = '\n' then
      if (rest.takeWhile isWsChar).contains '\n' then
        some (((rest.takeWhile isWsChar).reverse.takeWhile (fun d => d ≠ '\n')).reverse
          ++ rest.dropWhile isWsChar)
      else none
    else none

theorem blankMatch_length {l rem : List Char} (h : blankMatch l = some rem) :
    rem.length < l.length := by
  match l with
  | [] => simp [blankMatch] at h
  | c :: rest =>
    simp only [blankMatch] at h
    split at h
    · split at h
      · cases h
        have h1 : (rest.takeWhile isWsChar).length + (rest.dropWhile isWsChar).length
            = rest.length := by
          rw [← List.length_append, List.takeWhile_append_dropWhile]
        have h2 : ((rest.takeWhile isWsChar).reverse.takeWhile (fun d => d ≠ '\n')).length
            ≤ ((rest.takeWhile isWsChar).reverse).length :=
          takeWhile_length_le _ _
        simp only [List.length_reverse] at h2
        simp only [List.length_append, List.length_reverse, List.length_cons]
        omega
      · cases h
    · cases h

/-- Worker for `paraSplit`: scans the input, emitting a segment whenever the
blank-line separator pattern matches (JS `String.prototype.split` with that
pattern drops the separators). The `fuel` argument, instantiated with the
input length, keeps the recursion structural so that the kernel can evaluate
it; each step consumes at least one character, so the fuel never runs out. -/
def paraSplitAux : Nat → List Char → List Char → List (List Char)
  | 0, acc, _ => [acc.reverse]
  | _ + 1, acc, [] => [acc.reverse]
  | fuel + 1, acc, c :: rest =>
    match blankMatch (c :: rest) with
    | some rem => acc.reverse :: paraSplitAux fuel [] rem
    | none => paraSplitAux fuel (c :: acc) rest

/-- Paragraph split of `splitTextIntoChunks`: JS `split` on the blank-line
pattern (newline, whitespace run, newline). -/
def paraSplit (l : List Char) : List (List Char) :=
  paraSplitAux l.length [] l

/-- Worker for `sentSplit`: a split point is a whitespace run whose first
character immediately follows sentence-ending punctuation (the JS lookbehind
split pattern); `prevPunct` records whether the previous character was one of
the three sentence terminators. Fuel as in `paraSplitAux`. -/
def sentSplitAux : Nat → Bool → List Char → List Char → List (List Char)
  | 0, _, acc, _ => [acc.reverse]
  | _ + 1, _, acc, [] => [acc.reverse]
  | fuel + 1, prevPunct, acc, c :: rest =>
    if prevPunct && isWsChar c then
      acc.reverse :: sentSplitAux fuel false [] (rest.dropWhile isWsChar)
    else
      sentSplitAux fuel (c = '.' || c = '!' || c = '?') (c :: acc) rest

/-- Sentence split of `splitTextIntoChunks`: JS `split` on whitespace runs
preceded by sentence-ending punctuation. -/
def sentSplit (l : List Char) : List (List Char) :=
  sentSplitAux l.length false [] l

/-- Greedy sentence packing of `splitTextIntoChunks`: the running buffer `cur`
is flushed whenever appending the next trimmed sentence would push the sum of
their lengths over `size`; the joining space is not counted by that test. -/
def packLoop (size : Nat) (sents : List (List Char)) (cur : List Char) :
    List (List Char) :=
  match sents with
  | [] => if 0 < cur.length then [trimList cur] else []
  | s :: rest =>
    let t := trimList s
    if t.length = 0 then packLoop size rest cur
    else if size < cur.length + t.length then
      (if 0 < cur.length then [trimList cur] else []) ++ packLoop size rest t
    else
      packLoop size rest (if 0 < cur.length then cur ++ ' ' :: t else t)

/-- Per-paragraph step of `splitTextIntoChunks`: a short-enough paragraph is
emitted verbatim (trimmed); a long one is sentence-split and greedily packed. -/
def processParagraph (size : Nat) (p : List Char) : List (List Char) :=
  if (trimList p).length = 0 then []
  else if p.length ≤ size then [trimList p]
  else packLoop size (sentSplit p) []

/-- Embedding of `MemoryService.splitTextIntoChunks` on character lists:
normalise whitespace, split into paragraphs on blank lines, then emit each
paragraph whole or sentence-packed. -/
def splitChunks (size : Nat) (l : List Char) : List (List Char) :=
  (paraSplit (normalizeText l)).flatMap (processParagraph size)

/-- Embedding of `MemoryService.splitTextIntoChunks` on strings. -/
def splitTextIntoChunks (size : Nat) (text : String) : List String :=
  (splitChunks size text.data).map List.asString

/-- Metadata attached to a stored memory chunk (`MemoryMetadata` in the
source); `priority` is an integer because the front end clamps it to 1-10. -/
structure MemoryMetadata where
  tags : List String
  context : Option String
  source : Option String
  priority : Int
  category : Option String
  relatedIds : List String
deriving DecidableEq

/-- One stored unit of memorised information (`MemoryChunk` in the source);
`Date` timestamps become `Nat` milliseconds. -/
structure MemoryChunk where
  id : String
  text : String
  metadata : MemoryMetadata
  createdAt : Nat
  updatedAt : Nat
  accessCount : Nat
  lastAccessedAt : Nat
deriving DecidableEq

/-- The in-memory backend state (`MemoryDatabase`): the JS `Map` keyed by id is
modelled as the list of records in insertion order, plus the id counter. -/
structure Store where
  memories : List MemoryChunk
  nextId : Nat
deriving DecidableEq

/-- The id string assigned to the k-th stored record (the source's template
literal over the counter). -/
def memId (k : Nat) : String :=
  "mem-" ++ Nat.repr k

/-- Embedding of `MemoryDatabase.storeMemory`: assign the next id, stamp the
clock, start `accessCount` at zero, append to the map. -/
def storeMemoryDb (text : String) (metadata : MemoryMetadata) (now : Nat)
    (s : Store) : MemoryChunk × Store :=
  let newMemory : MemoryChunk :=
    { id := memId s.nextId
      text := text
      metadata := metadata
      createdAt := now
      updatedAt := now
      accessCount := 0
      lastAccessedAt := now }
  (newMemory, { memories := s.memories ++ [newMemory], nextId := s.nextId + 1 })

/-- Embedding of `MemoryDatabase.getMemory`: a hit bumps `accessCount`,
`lastAccessedAt` and `updatedAt` and writes the record back under its key. -/
def getMemoryDb (id : String) (now : Nat) (s : Store) :
    Option MemoryChunk × Store :=
  match s.memories.find? (fun m => m.id = id) with
  | some m =>
    let updated : MemoryChunk :=
      { m with accessCount := m.accessCount + 1, lastAccessedAt := now, updatedAt := now }
    (some updated, { s with memories := s.memories.map (fun x => if x.id = id then updated else x) })
  | none => (none, s)

/-- JS `Set` accumulation: append the element unless it is already present. -/
def addUnique (acc : List String) (t : String) : List String :=
  if t ∈ acc then acc else acc ++ [t]

/-- Embedding of `MemoryDatabase.getAllTags`: every tag of every record, in
first-occurrence order. -/
def getAllTagsDb (s : Store) : List String :=
  s.memories.foldl (fun acc m => m.metadata.tags.foldl addUnique acc) []

/-- Embedding of `MemoryDatabase.getAllCategories` (a falsy category string is
skipped). -/
def getAllCategoriesDb (s : Store) : List String :=
  s.memories.foldl (fun acc m =>
    match m.metadata.category with
    | some c => if c = "" then acc else addUnique acc c
    | none => acc) []

/-- Statistics record returned by `MemoryDatabase.getStats`. -/
structure StoreStats where
  totalMemories : Nat
  totalTags : Nat
  totalCategories : Nat
  oldestMemory : Option Nat
  newestMemory : Option Nat
deriving DecidableEq

/-- Embedding of `MemoryDatabase.getStats`. -/
def getStatsDb (s : Store) : StoreStats :=
  { totalMemories := s.memories.length
    totalTags := (getAllTagsDb s).length
    totalCategories := (getAllCategoriesDb s).length
    oldestMemory := s.memories.foldl (fun acc m =>
      match acc with
      | none => some m.createdAt
      | some o => if m.createdAt < o then some m.createdAt else some o) none
    newestMemory := s.memories.foldl (fun acc m =>
      match acc with
      | none => some m.createdAt
      | some o => if o < m.createdAt then some m.createdAt else some o) none }

/-- Stable insertion step: `x` is placed before the first element comparing
greater-or-equal, so earlier input among ties stays first, as with the stable
JS array sort. -/
def insertStable {α : Type} (cmp : α → α → Int) (x : α) : List α → List α
  | [] => [x]
  | y :: ys => if 0 ≤ cmp y x then x :: y :: ys else y :: insertStable cmp x ys

/-- Stable comparator sort, the embedding of JS `Array.prototype.sort` (stable
per ES2019) under a consistent comparator. -/
def sortStable {α : Type} (cmp : α → α → Int) : List α → List α
  | [] => []
  | x :: xs => insertStable cmp x (sortStable cmp xs)

/-- Sort keys accepted by `searchMemories`. -/
inductive SortBy where
  | relevance
  | date
  | access
  | priority
deriving DecidableEq

/-- Sort directions accepted by `searchMemories`. -/
inductive SortOrder where
  | asc
  | desc
deriving DecidableEq

/-- Search request (`MemorySearchParams` in the source). -/
structure MemorySearchParams where
  query : Option String
  tags : Option (List String)
  category : Option String
  dateFrom : Option Nat
  dateTo : Option Nat
  limit : Option Nat
  offset : Option Nat
  sortBy : Option SortBy
  sortOrder : Option SortOrder
deriving DecidableEq

/-- Search response (`MemorySearchResult` in the source). -/
structure MemorySearchResult where
  memories : List MemoryChunk
  total : Nat
  hasMore : Bool
deriving DecidableEq

/-- Tag filter of `MemoryDatabase.searchMemories`: the record must carry at
least one requested tag, compared by exact string equality. -/
def matchesTags (ts : List String) (m : MemoryChunk) : Bool :=
  ts.any (fun t => m.metadata.tags.contains t)

/-- Free-text filter of `MemoryDatabase.searchMemories`: case-insensitive
substring match against the text, each tag, and the context. -/
def queryFilter (q : String) (m : MemoryChunk) : Bool :=
  containsSub (jsToLower m.text) (jsToLower q)
    || m.metadata.tags.any (fun t => containsSub (jsToLower t) (jsToLower q))
    || (match m.metadata.context with
        | some ctx => containsSub (jsToLower ctx) (jsToLower q)
        | none => false)

/-- Filter pipeline of `MemoryDatabase.searchMemories`, in source order (tags,
category, dateFrom, dateTo, query); empty-string query and category are falsy
in JS and skip their filter, as does an absent or empty tag list. -/
def filterMemories (p : MemorySearchParams) (l : List MemoryChunk) :
    List MemoryChunk :=
  let l1 := match p.tags with
    | some ts => if 0 < ts.length then l.filter (matchesTags ts) else l
    | none => l
  let l2 := match p.category with
    | some c => if c = "" then l1 else l1.filter (fun m => m.metadata.category = some c)
    | none => l1
  let l3 := match p.dateFrom with
    | some d => l2.filter (fun m => decide (d ≤ m.createdAt))
    | none => l2
  let l4 := match p.dateTo with
    | some d => l3.filter (fun m => decide (m.createdAt ≤ d))
    | none => l3
  match p.query with
  | some q => if q = "" then l4 else l4.filter (queryFilter q)
  | none => l4

/-- Sort comparator of `MemoryDatabase.searchMemories`; relevance falls back to
access count for the in-memory backend, and descending negates. -/
def searchCmp (sb : SortBy) (so : SortOrder) (a b : MemoryChunk) : Int :=
  let comparison : Int :=
    match sb with
    | .date => (a.createdAt : Int) - (b.createdAt : Int)
    | .access => (a.accessCount : Int) - (b.accessCount : Int)
    | .priority => a.metadata.priority - b.metadata.priority
    | .relevance => (a.accessCount : Int) - (b.accessCount : Int)
  match so with
  | .desc => -comparison
  | .asc => comparison

/-- The effective offset of `searchMemories` (JS `params.offset` or zero). -/
def effOffset (p : MemorySearchParams) : Nat :=
  p.offset.getD 0

/-- The effective limit of `searchMemories`; a missing limit and the falsy
limit zero both become 50. -/
def effLimit (p : MemorySearchParams) : Nat :=
  match p.limit with
  | some l => if l = 0 then 50 else l
  | none => 50

/-- Embedding of `MemoryDatabase.searchMemories`: filter, sort, count the
filtered set, then paginate; the source computes `hasMore` from the offset and
the limit. -/
def searchMemoriesDb (p : MemorySearchParams) (s : Store) : MemorySearchResult :=
  let filtered := filterMemories p s.memories
  let sorted := sortStable (searchCmp (p.sortBy.getD .date) (p.sortOrder.getD .desc)) filtered
  let offset := effOffset p
  let limit := effLimit p
  let total := sorted.length
  { memories := (sorted.drop offset).take limit
    total := total
    hasMore := decide (offset + limit < total) }

/-- Comparator of `MemoryDatabase.cleanup`: ascending access count, ties broken
by ascending creation date. -/
def cleanupCmp (a b : MemoryChunk) : Int :=
  if a.accessCount ≠ b.accessCount then (a.accessCount : Int) - (b.accessCount : Int)
  else (a.createdAt : Int) - (b.createdAt : Int)

/-- Embedding of `MemoryDatabase.cleanup`: a falsy (absent or zero) cap is a
no-op, as is a store within the cap; otherwise the excess records, least by
`cleanupCmp` first, are deleted by id. -/
def cleanupDb (maxMemories : Option Nat) (s : Store) : Nat × Store :=
  match maxMemories with
  | none => (0, s)
  | some m =>
    if m = 0 then (0, s)
    else if s.memories.length ≤ m then (0, s)
    else
      let sorted := sortStable cleanupCmp s.memories
      let toRemove := sorted.take (s.memories.length - m)
      let removedIds := toRemove.map (fun x => x.id)
      (toRemove.length,
        { s with memories := s.memories.filter (fun x => !removedIds.contains x.id) })

/-- Caller-facing memorize request (`MemorizeParams` in the source). -/
structure MemorizeParams where
  text : String
  tags : Option (List String)
  context : Option String
  source : Option String
  priority : Option Int
  category : Option String
deriving DecidableEq

/-- Units worker of the capitalised-run pattern: greedily consume further
uppercase-letter-plus-lowercase-run groups. Fuel as in `paraSplitAux`. -/
def camelUnitsF : Nat → List Char → List Char × List Char
  | 0, l => ([], l)
  | _ + 1, [] => ([], [])
  | fuel + 1, c :: rest =>
    if isUpperChar c && !(rest.takeWhile isLowerChar).isEmpty then
      let m := camelUnitsF fuel (rest.dropWhile isLowerChar)
      (c :: (rest.takeWhile isLowerChar ++ m.1), m.2)
    else ([], c :: rest)

/-- Greedy consumption of uppercase-plus-lowercase-run groups. -/
def camelUnits (l : List Char) : List Char × List Char :=
  camelUnitsF l.length l

/-- Match attempt at the head of the input for the source's first tag pattern:
an uppercase letter, a nonempty lowercase run, then further such groups. -/
def camelMatchAt (l : List Char) : Option (List Char) :=
  match l with
  | [] => none
  | c :: rest =>
    if isUpperChar c && !(rest.takeWhile isLowerChar).isEmpty then
      some (c :: (rest.takeWhile isLowerChar ++ (camelUnits (rest.dropWhile isLowerChar)).1))
    else none

/-- Worker of `kebabGroups`, with fuel as in `paraSplitAux`. -/
def kebabGroupsF : Nat → List Char → List Char
  | 0, _ => []
  | _ + 1, [] => []
  | fuel + 1, c :: rest =>
    if c = '-' && !(rest.takeWhile isLowerChar).isEmpty then
      '-' :: (rest.takeWhile isLowerChar ++ kebabGroupsF fuel (rest.dropWhile isLowerChar))
    else []

/-- Greedy consumption of hyphen-plus-lowercase-run groups for the second tag
pattern. -/
def kebabGroups (l : List Char) : List Char :=
  kebabGroupsF l.length l

/-- Match attempt for the source's second tag pattern: a nonempty lowercase run
followed by optional hyphen-joined lowercase runs (so a plain lowercase word
matches too). -/
def kebabMatchAt (l : List Char) : Option (List Char) :=
  if (l.takeWhile isLowerChar).isEmpty then none
  else some (l.takeWhile isLowerChar ++ kebabGroups (l.dropWhile isLowerChar))

/-- Match attempt for the source's third tag pattern: two or more consecutive
uppercase letters. -/
def capsMatchAt (l : List Char) : Option (List Char) :=
  if (l.takeWhile isUpperChar).length < 2 then none
  else some (l.takeWhile isUpperChar)

/-- Worker of `scanMatches`, with fuel as in `paraSplitAux`. -/
def scanMatchesF (matchAt : List Char → Option (List Char)) :
    Nat → List Char → List (List Char)
  | 0, _ => []
  | _ + 1, [] => []
  | fuel + 1, c :: rest =>
    match matchAt (c :: rest) with
    | some m => m :: scanMatchesF matchAt fuel ((c :: rest).drop (max 1 m.length))
    | none => scanMatchesF matchAt fuel rest

/-- Global regex scan: leftmost nonoverlapping matches, resuming after each
match, as with JS `String.prototype.match` with the global flag (all three
patterns only produce nonempty matches, so `max 1` never bites). -/
def scanMatches (matchAt : List Char → Option (List Char)) (l : List Char) :
    List (List Char) :=
  scanMatchesF matchAt l.length l

/-- The fixed technical-term vocabulary of `extractTagsFromText`, in source
order (including its duplicated entry). -/
def technicalTerms : List String :=
  ["api", "http", "https", "json", "xml", "sql", "nosql", "react", "vue", "angular",
   "node", "python", "java", "javascript", "typescript", "docker", "kubernetes",
   "aws", "azure", "gcp", "git", "github", "gitlab", "jenkins", "ci", "cd",
   "rest", "graphql", "websocket", "oauth", "jwt", "ssl", "tls", "cdn", "api",
   "database", "cache", "redis", "postgres", "mysql", "mongodb", "elasticsearch"]

/-- String form of a lowercased character-list match. -/
def lowerStr (l : List Char) : String :=
  ⟨lowerList l⟩

/-- Embedding of `MemoryService.extractTagsFromText`: for each of the three
patterns in order, collect lowercased matches of length at least three into the
set; then add every vocabulary term occurring in the lowercased text. -/
def extractTagsFromText (text : String) : List String :=
  let tags1 := [camelMatchAt, kebabMatchAt, capsMatchAt].foldl (fun acc pat =>
    (scanMatches pat text.data).foldl (fun acc2 m =>
      if 3 ≤ m.length then addUnique acc2 (lowerStr m) else acc2) acc) []
  technicalTerms.foldl (fun acc term =>
    if containsSub (jsToLower text) term then addUnique acc term else acc) tags1

/-- Embedding of `MemoryService.detectCategory`: first matching keyword group
wins. -/
def detectCategory (text : String) : Option String :=
  let lt := jsToLower text
  if containsSub lt "bug" || containsSub lt "error" || containsSub lt "issue" then
    some "troubleshooting"
  else if containsSub lt "api" || containsSub lt "endpoint" || containsSub lt "rest" then
    some "api"
  else if containsSub lt "database" || containsSub lt "sql" || containsSub lt "query" then
    some "database"
  else if containsSub lt "deploy" || containsSub lt "docker" || containsSub lt "kubernetes" then
    some "deployment"
  else if containsSub lt "test" || containsSub lt "spec" || containsSub lt "unit" then
    some "testing"
  else none

/-- Embedding of `MemoryService.detectMetadata`: lowercased caller tags first,
then auto-extracted tags, into one set; caller category if truthy, else
detected; priority defaulted through the JS falsy-or. -/
def detectMetadata (chunk : String) (p : MemorizeParams) : MemoryMetadata :=
  let userTags := match p.tags with
    | some ts => ts.foldl (fun acc t => addUnique acc (jsToLower t)) []
    | none => []
  { tags := (extractTagsFromText chunk).foldl addUnique userTags
    context := p.context
    source := p.source
    priority := match p.priority with
      | some pr => if pr = 0 then 5 else pr
      | none => 5
    category := match p.category with
      | some c => if c = "" then detectCategory chunk else some c
      | none => detectCategory chunk
    relatedIds := [] }

/-- Successful memorize response. -/
structure MemorizeOk where
  memoryIds : List String
  chunksCreated : Nat
deriving DecidableEq

/-- The storing loop of `MemoryService.memorize`: each chunk is stored with its
detected metadata, accumulating ids in chunk order. -/
def memorizeLoop (p : MemorizeParams) (now : Nat) (chunks : List String)
    (acc : List String × Store) : List String × Store :=
  chunks.foldl (fun acc chunk =>
    let stored := storeMemoryDb chunk (detectMetadata chunk p) now acc.2
    (acc.1 ++ [stored.1.id], stored.2)) acc

/-- Embedding of `MemoryService.memorize`: reject blank text before chunking,
otherwise store each chunk with its detected metadata in order. -/
def memorizeR (chunkSize : Nat) (p : MemorizeParams) (now : Nat) (s : Store) :
    Except String MemorizeOk × Store :=
  if (jsTrim p.text).data.isEmpty then (Except.error "Text cannot be empty", s)
  else
    let chunks := splitTextIntoChunks chunkSize p.text
    let r := memorizeLoop p now chunks ([], s)
    (Except.ok { memoryIds := r.1, chunksCreated := chunks.length }, r.2)

/-- Row update of the Levenshtein matrix: walk the first string, carrying the
previous row and the value just computed to the left. -/
def levStepGo (c2 : Char) : List Char → List Nat → Nat → List Nat
  | [], _, _ => []
  | _ :: _, [], _ => []
  | c1 :: s1, p0 :: rest, left =>
    let v := min (min (left + 1) (rest.headD 0 + 1)) (p0 + if c1 = c2 then 0 else 1)
    v :: levStepGo c2 s1 rest v

/-- One full row of the Levenshtein matrix for the next character of the second
string. -/
def levStep (s1 : List Char) (prev : List Nat) (c2 : Char) : List Nat :=
  (prev.headD 0 + 1) :: levStepGo c2 s1 prev (prev.headD 0 + 1)

/-- Embedding of `ReorganizerService.levenshteinDistance` as the row-by-row
dynamic program of the source. -/
def levenshtein (str1 str2 : List Char) : Nat :=
  (str2.foldl (levStep str1) (List.range (str1.length + 1))).getLastD 0

/-- Embedding of `ReorganizerService.areTagsSimilar`: equal after lowering, one
a substring of the other, or normalised similarity above 0.8 (the float
comparison read exactly over the rationals: 1 - d/m above 0.8 iff 5*d is below
m). -/
def areTagsSimilar (tag1 tag2 : String) : Bool :=
  let t1 := jsToLower tag1
  let t2 := jsToLower tag2
  if t1 = t2 then true
  else if containsSub t1 t2 || containsSub t2 t1 then true
  else decide (5 * levenshtein t1.data t2.data < max t1.data.length t2.data.length)

/-- Inner pass of `groupSimilarTags`: absorb every not-yet-processed tag of the
full list that is similar to the seed. -/
def groupPass (tags : List String) (seed : String) (processed : List String) :
    List String × List String :=
  tags.foldl (fun (acc : List String × List String) o =>
    if o ∈ acc.2 then acc
    else if areTagsSimilar seed o then (acc.1 ++ [o], acc.2 ++ [o])
    else acc) ([], processed)

/-- Outer loop of `groupSimilarTags` over the remaining seeds, carrying the
processed set. -/
def groupAux (tags : List String) : List String → List String → List (List String)
  | [], _ => []
  | t :: rest, processed =>
    if t ∈ processed then groupAux tags rest processed
    else
      let pass := groupPass tags t (processed ++ [t])
      (t :: pass.1) :: groupAux tags rest pass.2

/-- Embedding of `ReorganizerService.groupSimilarTags`: single-pass, seed-only
similarity grouping in input order. -/
def groupSimilarTags (tags : List String) : List (List String) :=
  groupAux tags tags []

/-- Length of a tag once hyphens and underscores are stripped (the source's
cleaned form). -/
def cleanLen (t : String) : Nat :=
  (t.data.filter (fun c => c ≠ '-' && c ≠ '_')).length

/-- Number of hyphen or underscore characters of a tag. -/
def specialCount (t : String) : Nat :=
  (t.data.filter (fun c => c = '-' || c = '_')).length

/-- Comparator of `selectPrimaryTag`: shorter cleaned form first, ties broken
by fewer special characters. -/
def primaryCmp (a b : String) : Int :=
  if cleanLen a ≠ cleanLen b then (cleanLen a : Int) - (cleanLen b : Int)
  else (specialCount a : Int) - (specialCount b : Int)

/-- Embedding of `ReorganizerService.selectPrimaryTag`: first element of the
stable sort under `primaryCmp`. -/
def selectPrimaryTag (tags : List String) : String :=
  (sortStable primaryCmp tags).headD ""

/-- Embedding of `ReorganizerService.mergeSimilarTags`: the similarity groups
and their primary/secondary split are computed, but per the source's TODO no
record is updated and the returned count stays zero. -/
def mergeSimilarTagsR (s : Store) : Nat × Store :=
  let mergedCount := 0
  let plans := (groupSimilarTags (getAllTagsDb s)).map (fun group =>
    if group.length ≤ 1 then none
    else some (selectPrimaryTag group, group.filter (fun tag => tag ≠ selectPrimaryTag group)))
  let _ := plans
  (mergedCount, s)

/-- Embedding of `ReorganizerService.cleanupOldMemories`: a falsy cap defaults
to 1000; within the cap nothing happens, otherwise the backend cleanup runs. -/
def cleanupOldMemoriesR (maxMemories : Option Nat) (s : Store) : Nat × Store :=
  let capped := match maxMemories with
    | none => 1000
    | some m => if m = 0 then 1000 else m
  if (getStatsDb s).totalMemories ≤ capped then (0, s)
  else cleanupDb (some capped) s

/-- Embedding of `ReorganizerService.optimizeStorage`: a no-op reporting
success. -/
def optimizeStorageR : Bool := true

/-- Reorganize request (`ReorganizeParams` in the source); absent flags behave
as false. -/
structure ReorganizeParams where
  mergeSimilarTags : Bool
  cleanupOldMemories : Bool
  optimizeStorage : Bool
  maxMemories : Option Nat
deriving DecidableEq

/-- Status field of a reorganize response. -/
inductive RStatus where
  | ok
  | error
deriving DecidableEq

/-- Reorganize response (`ReorganizeResult` in the source). -/
structure ReorganizeResult where
  status : RStatus
  tagsMerged : Nat
  memoriesCleaned : Nat
  storageOptimized : Bool
  error : Option String
deriving DecidableEq

/-- The three fallible sub-operations `reorganize` composes, over an abstract
backend state; each returns its result or thrown error together with the
post-call state. -/
structure SubOps (σ : Type) where
  mergeTags : σ → Except String Nat × σ
  cleanupMems : Option Nat → σ → Except String Nat × σ
  optimizeStore : σ → Except String Bool × σ

/-- Embedding of `ReorganizerService.reorganize`: try the three sub-operations
in the fixed order merge, cleanup, optimize, each only if its flag is set; the
catch clause returns status error with whatever counts were assigned before
the throw. -/
def reorganizeWith {σ : Type} (ops : SubOps σ) (p : ReorganizeParams) (s : σ) :
    ReorganizeResult × σ :=
  let step1 := if p.mergeSimilarTags then ops.mergeTags s else (Except.ok 0, s)
  match step1 with
  | (Except.error e, s1) =>
    ({ status := .error, tagsMerged := 0, memoriesCleaned := 0,
       storageOptimized := false, error := some e }, s1)
  | (Except.ok tagsMerged, s1) =>
    let step2 := if p.cleanupOldMemories then ops.cleanupMems p.maxMemories s1
      else (Except.ok 0, s1)
    match step2 with
    | (Except.error e, s2) =>
      ({ status := .error, tagsMerged := tagsMerged, memoriesCleaned := 0,
         storageOptimized := false, error := some e }, s2)
    | (Except.ok memoriesCleaned, s2) =>
      let step3 := if p.optimizeStorage then ops.optimizeStore s2
        else (Except.ok false, s2)
      match step3 with
      | (Except.error e, s3) =>
        ({ status := .error, tagsMerged := tagsMerged, memoriesCleaned := memoriesCleaned,
           storageOptimized := false, error := some e }, s3)
      | (Except.ok storageOptimized, s3) =>
        ({ status := .ok, tagsMerged := tagsMerged, memoriesCleaned := memoriesCleaned,
           storageOptimized := storageOptimized, error := none }, s3)

/-- The concrete sub-operations over the in-memory backend; none of them can
throw. -/
def memSubOps : SubOps Store :=
  { mergeTags := fun s => (Except.ok (mergeSimilarTagsR s).1, (mergeSimilarTagsR s).2)
    cleanupMems := fun mm s =>
      (Except.ok (cleanupOldMemoriesR mm s).1, (cleanupOldMemoriesR mm s).2)
    optimizeStore := fun s => (Except.ok optimizeStorageR, s) }

/-- Reorganize over the in-memory backend. -/
def reorganizeR (p : ReorganizeParams) (s : Store) : ReorganizeResult × Store :=
  reorganizeWith memSubOps p s

/-- Raw memorize request as decoded from JSON by the front end; a field of the
wrong JS type behaves as absent. -/
structure RawMemorizeParams where
  text : Option String
  tags : Option (List String)
  context : Option String
  source : Option String
  priority : Option Int
  category : Option String
deriving DecidableEq

/-- Embedding of `parseMemorizeParams`: reject blank text, trim the free-text
fields, clamp priority into 1-10. -/
def parseMemorizeParams (raw : RawMemorizeParams) : Except String MemorizeParams :=
  match raw.text with
  | none => Except.error "Text parameter is required and must be a non-empty string"
  | some t =>
    if (jsTrim t).data.isEmpty then
      Except.error "Text parameter is required and must be a non-empty string"
    else
      Except.ok
        { text := jsTrim t
          tags := raw.tags
          context := raw.context.map jsTrim
          source := raw.source.map jsTrim
          priority := raw.priority.map (fun pr => max 1 (min 10 pr))
          category := raw.category.map jsTrim }

/-- Raw reorganize request as decoded from JSON by the front end. -/
structure RawReorganizeParams where
  mergeSimilarTags : Option Bool
  cleanupOldMemories : Option Bool
  optimizeStorage : Option Bool
  maxMemories : Option Int
deriving DecidableEq

/-- Embedding of `parseReorganizeParams`: booleans pass through, `maxMemories`
is clamped below by one. -/
def parseReorganizeParams (raw : RawReorganizeParams) : ReorganizeParams :=
  { mergeSimilarTags := raw.mergeSimilarTags.getD false
    cleanupOldMemories := raw.cleanupOldMemories.getD false
    optimizeStorage := raw.optimizeStorage.getD false
    maxMemories := raw.maxMemories.map (fun m => (max 1 m).toNat) }

/-- The operations reachable through the MCP front end (the tool registry of
the server). -/
inductive FrontOp where
  | memorize (raw : RawMemorizeParams)
  | list (p : MemorySearchParams)
  | getMemory (id : String)
  | getTags
  | getCategories
  | getStats
  | reorganize (raw : RawReorganizeParams)

/-- Store transition of one front-end request: memorize parses then stores,
get-memory trims then bumps on hit, reorganize parses then runs; the read-only
tools leave the store as is, as does any validation failure. -/
def frontStep (chunkSize : Nat) (now : Nat) (op : FrontOp) (s : Store) : Store :=
  match op with
  | .memorize raw =>
    match parseMemorizeParams raw with
    | Except.error _ => s
    | Except.ok p => (memorizeR chunkSize p now s).2
  | .list _ => s
  | .getMemory id =>
    if (jsTrim id).data.isEmpty then s
    else (getMemoryDb (jsTrim id) now s).2
  | .getTags => s
  | .getCategories => s
  | .getStats => s
  | .reorganize raw => (reorganizeR (parseReorganizeParams raw) s).2

/-- The auto-extracted tag set as the specification describes it, with the
second pass read as it is written there: only hyphenated lowercase tokens. -/
def autoTagSpecOrig (text : String) (x : String) : Prop :=
  (∃ m ∈ scanMatches camelMatchAt text.data, 3 ≤ m.length ∧ x = lowerStr m) ∨
  (∃ m ∈ scanMatches kebabMatchAt text.data,
    3 ≤ m.length ∧ '-' ∈ m ∧ x = lowerStr m) ∨
  (∃ m ∈ scanMatches capsMatchAt text.data, 3 ≤ m.length ∧ x = lowerStr m) ∨
  (x ∈ technicalTerms ∧ containsSub (jsToLower text) x = true)

instance (text x : String) : Decidable (autoTagSpecOrig text x) := by
  unfold autoTagSpecOrig
  infer_instance

/-- The auto-extracted tag set with the second pass as the code implements it:
lowercase runs with optional hyphen-joined continuations, so plain lowercase
words qualify. -/
def autoTagSpecAmended (text : String) (x : String) : Prop :=
  (∃ m ∈ scanMatches camelMatchAt text.data, 3 ≤ m.length ∧ x = lowerStr m) ∨
  (∃ m ∈ scanMatches kebabMatchAt text.data, 3 ≤ m.length ∧ x = lowerStr m) ∨
  (∃ m ∈ scanMatches capsMatchAt text.data, 3 ≤ m.length ∧ x = lowerStr m) ∨
  (x ∈ technicalTerms ∧ containsSub (jsToLower text) x = true)

/-- A record tagged "api". -/
def apiRecord : MemoryChunk :=
  { id := "mem-1"
    text := "one"
    metadata := { tags := ["api"], context := none, source := none,
                  priority := 5, category := none, relatedIds := [] }
    createdAt := 10, updatedAt := 10, accessCount := 0, lastAccessedAt := 10 }

/-- A record tagged "api-server". -/
def apiServerRecord : MemoryChunk :=
  { id := "mem-2"
    text := "two"
    metadata := { tags := ["api-server"], context := none, source := none,
                  priority := 5, category := none, relatedIds := [] }
    createdAt := 20, updatedAt := 20, accessCount := 0, lastAccessedAt := 20 }

/-- A store with two records, one tagged "api" and one tagged "api-server",
the configuration of the specification's tag-merge example. -/
def mergeExampleStore : Store :=
  { memories := [apiRecord, apiServerRecord], nextId := 3 }

/-- A search request filtering on the single tag "API", which carries an
uppercase letter. -/
def upperTagSearch : MemorySearchParams :=
  { query := none, tags := some ["API"], category := none,
    dateFrom := none, dateTo := none, limit := none, offset := none,
    sortBy := none, sortOrder := none }

/-- A memorize request whose text is whitespace-only. -/
def blankMemorize : MemorizeParams :=
  { text := "  ", tags := none, context := none, source := none,
    priority := none, category := none }

/-- The store right after initialisation. -/
def emptyStore : Store :=
  { memories := [], nextId := 1 }

/-- A search request filtering on the single tag "api-server". -/
def apiServerSearch : MemorySearchParams :=
  { query := none, tags := some ["api-server"], category := none,
    dateFrom := none, dateTo := none, limit := none, offset := none,
    sortBy := none, sortOrder := none }

/-- Abstract sub-operations over a counter state used to exercise the
reorganize control flow: merge succeeds with seven, cleanup throws, optimize
would succeed. -/
def failingCleanupOps : SubOps Nat :=
  { mergeTags := fun s => (Except.ok 7, s + 1)
    cleanupMems := fun _ s => (Except.error "boom", s + 1)
    optimizeStore := fun s => (Except.ok true, s + 1) }

/-- The store invariants of the data model: every id is a counter-rendered
`memId` below the next-id watermark and ids are pairwise distinct, every
priority lies in one to ten, and every tag is fixed under lowercasing. -/
def Inv (s : Store) : Prop :=
  (∀ c ∈ s.memories, ∃ k, k < s.nextId ∧ c.id = memId k) ∧
  (s.memories.map (fun c => c.id)).Nodup ∧
  (∀ c ∈ s.memories, 1 ≤ c.metadata.priority ∧ c.metadata.priority ≤ 10) ∧
  (∀ c ∈ s.memories, ∀ t ∈ c.metadata.tags, jsToLower t = t)

/-- Between two store states: no record's access count decreases (records are
identified by id). -/
def AccessMono (s s' : Store) : Prop :=
  ∀ c ∈ s.memories, ∀ c' ∈ s'.memories, c.id = c'.id →
    c.accessCount ≤ c'.accessCount

/-! Generic lemmas about the JS-set accumulation and the case-folding helpers. -/

theorem mem_addUnique {acc : List String} {t x : String} :
    x ∈ addUnique acc t ↔ x ∈ acc ∨ x = t := by
  unfold addUnique
  by_cases h : t ∈ acc
  · simp only [h, if_true]
    constructor
    · exact Or.inl
    · rintro (hx | rfl)
      · exact hx
      · exact h
  · simp [h]

theorem mem_foldl_addUnique {α : Type} (f : α → String) (P : α → Prop)
    [DecidablePred P] (l : List α) (acc : List String) (x : String) :
    x ∈ l.foldl (fun a m => if P m then addUnique a (f m) else a) acc ↔
      x ∈ acc ∨ ∃ m ∈ l, P m ∧ x = f m := by
  induction l generalizing acc with
  | nil => simp
  | cons m rest ih =>
    simp only [List.foldl_cons]
    by_cases hp : P m
    · simp only [hp, if_true]
      rw [ih]
      simp only [mem_addUnique, List.mem_cons]
      constructor
      · rintro ((hx | rfl) | ⟨m', hm', hPm', rfl⟩)
        · exact Or.inl hx
        · exact Or.inr ⟨m, Or.inl rfl, hp, rfl⟩
        · exact Or.inr ⟨m', Or.inr hm', hPm', rfl⟩
      · rintro (hx | ⟨m', hm' | hm', hPm', rfl⟩)
        · exact Or.inl (Or.inl hx)
        · subst hm'; exact Or.inl (Or.inr rfl)
        · exact Or.inr ⟨m', hm', hPm', rfl⟩
    · simp only [hp, if_false]
      rw [ih]
      simp only [List.mem_cons]
      constructor
      · rintro (hx | ⟨m', hm', hPm', rfl⟩)
        · exact Or.inl hx
        · exact Or.inr ⟨m', Or.inr hm', hPm', rfl⟩
      · rintro (hx | ⟨m', hm' | hm', hPm', rfl⟩)
        · exact Or.inl hx
        · subst hm'; simp [hp] at hPm'
        · exact Or.inr ⟨m', hm', hPm', rfl⟩

theorem mem_foldl_addUnique_plain (l : List String) (acc : List String) (x : String) :
    x ∈ l.foldl addUnique acc ↔ x ∈ acc ∨ x ∈ l := by
  induction l generalizing acc with
  | nil => simp
  | cons t rest ih =>
    simp only [List.foldl_cons, ih, mem_addUnique, List.mem_cons]
    tauto

theorem jsLowerChar_not_upper (c : Char) : isUpperChar (jsLowerChar c) = false := by
  unfold jsLowerChar
  by_cases h : isUpperChar c
  · have hc : 65 ≤ c.toNat ∧ c.toNat ≤ 90 := by
      unfold isUpperChar at h
      simp only [Bool.and_eq_true, decide_eq_true_eq] at h
      exact h
    have hval : (Char.ofNat (c.toNat + 32)).toNat = c.toNat + 32 := by
      unfold Char.ofNat
      rw [dif_pos]
      · rfl
      · exact Or.inl (by omega)
    simp only [h, if_true]
    unfold isUpperChar
    have : ¬((65 : Nat) ≤ c.toNat + 32 ∧ c.toNat + 32 ≤ 90) := by omega
    simp only [Bool.and_eq_false_iff]
    by_contra hcon
    simp only [Bool.and_eq_false_iff, not_or, Bool.not_eq_false, decide_eq_true_eq] at hcon
    have h1 : (65 : Nat) ≤ (Char.ofNat (c.toNat + 32)).toNat := hcon.1
    have h2 : (Char.ofNat (c.toNat + 32)).toNat ≤ 90 := hcon.2
    rw [hval] at h1 h2
    omega
  · simp only [h, if_false]
    simp only [Bool.not_eq_true] at h
    exact h

theorem jsLowerChar_idem (c : Char) : jsLowerChar (jsLowerChar c) = jsLowerChar c := by
  have h := jsLowerChar_not_upper c
  unfold jsLowerChar
  rw [show isUpperChar (if isUpperChar c = true then Char.ofNat (c.toNat + 32) else c)
      = isUpperChar (jsLowerChar c) from rfl]
  rw [h]
  simp

theorem lowerList_idem (l : List Char) : lowerList (lowerList l) = lowerList l := by
  unfold lowerList
  rw [List.map_map]
  apply List.map_congr_left
  intro c _
  exact jsLowerChar_idem c

theorem jsToLower_idem (s : String) : jsToLower (jsToLower s) = jsToLower s := by
  unfold jsToLower
  apply String.ext
  exact lowerList_idem s.data

theorem lowerStr_fixed (m : List Char) : jsToLower (lowerStr m) = lowerStr m := by
  unfold lowerStr
  exact jsToLower_idem ⟨m⟩

theorem technicalTerms_lower : ∀ t ∈ technicalTerms, jsToLower t = t := by
  decide

/-! Characterisation of the auto-extracted tag set (claim C3). -/

/-- C3, counterexample: on the chunk text "zebra" the extractor emits the tag
"zebra", a plain unhyphenated lowercase word that is neither a match of the
three passes as the specification words them nor a vocabulary term, so the
claimed characterisation of the auto-extracted set fails. -/
theorem extractTags_c3_cex :
    "zebra" ∈ extractTagsFromText "zebra" ∧ ¬ autoTagSpecOrig "zebra" "zebra" := by
  constructor
  · decide
  · decide

/-- C3 (amended): a string is an auto-extracted tag of a chunk text exactly
when it is a lowercased match, of length at least three, of one of the three
source patterns - capitalised-word runs, lowercase runs with optional
hyphen-joined continuations (which includes plain lowercase words), or
uppercase acronym runs - or a fixed vocabulary term occurring as a substring of
the lowercased text. -/
theorem extractTags_characterisation (text x : String) :
    x ∈ extractTagsFromText text ↔ autoTagSpecAmended text x := by
  unfold extractTagsFromText autoTagSpecAmended
  rw [show ([camelMatchAt, kebabMatchAt, capsMatchAt].foldl (fun acc pat =>
      (scanMatches pat text.data).foldl (fun acc2 m =>
        if 3 ≤ m.length then addUnique acc2 (lowerStr m) else acc2) acc) [])
    = ((scanMatches capsMatchAt text.data).foldl (fun acc2 m =>
        if 3 ≤ m.length then addUnique acc2 (lowerStr m) else acc2)
      ((scanMatches kebabMatchAt text.data).foldl (fun acc2 m =>
        if 3 ≤ m.length then addUnique acc2 (lowerStr m) else acc2)
      ((scanMatches camelMatchAt text.data).foldl (fun acc2 m =>
        if 3 ≤ m.length then addUnique acc2 (lowerStr m) else acc2) []))) from rfl]
  rw [mem_foldl_addUnique (fun t => t) (fun t => containsSub (jsToLower text) t = true)]
  rw [mem_foldl_addUnique (fun m => lowerStr m) (fun m => 3 ≤ m.length)]
  rw [mem_foldl_addUnique (fun m => lowerStr m) (fun m => 3 ≤ m.length)]
  rw [mem_foldl_addUnique (fun m => lowerStr m) (fun m => 3 ≤ m.length)]
  simp only [List.not_mem_nil, false_or]
  constructor
  · rintro (((h | h) | h) | h)
    · exact Or.inl h
    · exact Or.inr (Or.inl h)
    · exact Or.inr (Or.inr (Or.inl h))
    · obtain ⟨m, hm, hc, rfl⟩ := h
      exact Or.inr (Or.inr (Or.inr ⟨hm, hc⟩))
  · rintro (h | h | h | h)
    · exact Or.inl (Or.inl (Or.inl h))
    · exact Or.inl (Or.inl (Or.inr h))
    · exact Or.inl (Or.inr h)
    · exact Or.inr ⟨x, h.1, h.2, rfl⟩

/-! Validation behaviour of memorize (claim C5). -/

theorem mem_trimList {l : List Char} {c : Char} (h : c ∈ trimList l) : c ∈ l := by
  unfold trimList at h
  rw [List.mem_reverse] at h
  have h1 := (List.dropWhile_sublist isWsChar).mem h
  rw [List.mem_reverse] at h1
  exact (List.dropWhile_sublist isWsChar).mem h1

theorem trimList_eq_nil_iff (l : List Char) :
    trimList l = [] ↔ ∀ c ∈ l, isWsChar c = true := by
  unfold trimList
  rw [List.reverse_eq_nil_iff, List.dropWhile_eq_nil_iff]
  constructor
  · intro h c hc
    have hc2 : c ∈ l.takeWhile isWsChar ++ l.dropWhile isWsChar := by
      rw [List.takeWhile_append_dropWhile]; exact hc
    rcases List.mem_append.mp hc2 with h1 | h1
    · exact List.mem_takeWhile_imp h1
    · exact h c (List.mem_reverse.mpr h1)
  · intro h c hc
    rw [List.mem_reverse] at hc
    exact h c ((List.dropWhile_sublist isWsChar).mem hc)

/-- C5: memorize fails with its validation error exactly when the text is
empty or whitespace-only, and on such a failure the store is unchanged - the
check precedes chunking and every storage call. -/
theorem memorize_validation (chunkSize : Nat) (p : MemorizeParams) (now : Nat)
    (s : Store) :
    ((∃ e, (memorizeR chunkSize p now s).1 = Except.error e) ↔
      ∀ c ∈ p.text.data, isWsChar c = true) ∧
    ((∀ c ∈ p.text.data, isWsChar c = true) →
      (memorizeR chunkSize p now s).2 = s) := by
  have hdata : (jsTrim p.text).data = trimList p.text.data := rfl
  by_cases hp : ∀ c ∈ p.text.data, isWsChar c = true
  · have hg : (jsTrim p.text).data.isEmpty = true := by
      rw [List.isEmpty_iff, hdata, trimList_eq_nil_iff]; exact hp
    unfold memorizeR
    rw [if_pos hg]
    exact ⟨iff_of_true ⟨"Text cannot be empty", rfl⟩ hp, fun _ => rfl⟩
  · have hg : ¬((jsTrim p.text).data.isEmpty = true) := by
      rw [List.isEmpty_iff, hdata, trimList_eq_nil_iff]; exact hp
    unfold memorizeR
    rw [if_neg hg]
    refine ⟨iff_of_false ?_ hp, fun hws => absurd hws hp⟩
    rintro ⟨e, he⟩
    exact Except.noConfusion he

/-! Control flow of reorganize across sub-operation failures (claim C6). -/

/-- C6: reorganize attempts merge, cleanup and optimize in that fixed order;
when a sub-operation throws, the call reports status error carrying exactly
the counts of the sub-operations completed before the failure, the later
sub-operations are never attempted (the final state is the state the failing
call left), and when nothing throws the call reports status ok with all three
result fields. -/
theorem reorganize_error_policy {σ : Type} (ops : SubOps σ)
    (p : ReorganizeParams) (s : σ) :
    (∀ e s1,
      (if p.mergeSimilarTags then ops.mergeTags s else (Except.ok 0, s)) = (Except.error e, s1) →
      reorganizeWith ops p s =
        ({ status := .error, tagsMerged := 0, memoriesCleaned := 0,
           storageOptimized := false, error := some e }, s1)) ∧
    (∀ tm s1 e s2,
      (if p.mergeSimilarTags then ops.mergeTags s else (Except.ok 0, s)) = (Except.ok tm, s1) →
      (if p.cleanupOldMemories then ops.cleanupMems p.maxMemories s1
        else (Except.ok 0, s1)) = (Except.error e, s2) →
      reorganizeWith ops p s =
        ({ status := .error, tagsMerged := tm, memoriesCleaned := 0,
           storageOptimized := false, error := some e }, s2)) ∧
    (∀ tm s1 mc s2 e s3,
      (if p.mergeSimilarTags then ops.mergeTags s else (Except.ok 0, s)) = (Except.ok tm, s1) →
      (if p.cleanupOldMemories then ops.cleanupMems p.maxMemories s1
        else (Except.ok 0, s1)) = (Except.ok mc, s2) →
      (if p.optimizeStorage then ops.optimizeStore s2
        else (Except.ok false, s2)) = (Except.error e, s3) →
      reorganizeWith ops p s =
        ({ status := .error, tagsMerged := tm, memoriesCleaned := mc,
           storageOptimized := false, error := some e }, s3)) ∧
    (∀ tm s1 mc s2 so s3,
      (if p.mergeSimilarTags then ops.mergeTags s else (Except.ok 0, s)) = (Except.ok tm, s1) →
      (if p.cleanupOldMemories then ops.cleanupMems p.maxMemories s1
        else (Except.ok 0, s1)) = (Except.ok mc, s2) →
      (if p.optimizeStorage then ops.optimizeStore s2
        else (Except.ok false, s2)) = (Except.ok so, s3) →
      reorganizeWith ops p s =
        ({ status := .ok, tagsMerged := tm, memoriesCleaned := mc,
           storageOptimized := so, error := none }, s3)) := by
  refine ⟨?_, ?_, ?_, ?_⟩
  · intro e s1 h1
    unfold reorganizeWith
    rw [h1]
  · intro tm s1 e s2 h1 h2
    unfold reorganizeWith
    rw [h1]
    simp only
    rw [h2]
  · intro tm s1 mc s2 e s3 h1 h2 h3
    unfold reorganizeWith
    rw [h1]
    simp only
    rw [h2]
    simp only
    rw [h3]
  · intro tm s1 mc s2 so s3 h1 h2 h3
    unfold reorganizeWith
    rw [h1]
    simp only
    rw [h2]
    simp only
    rw [h3]

/-- Witness for C6 at concrete sub-operations whose cleanup throws: reorganize
reports status error with the merge count but a zero cleanup count, and the
optimize step never runs (the state stops at two increments). -/
theorem reorganize_error_policy_witness :
    reorganizeWith failingCleanupOps
        { mergeSimilarTags := true, cleanupOldMemories := true,
          optimizeStorage := true, maxMemories := none } 0 =
      ({ status := .error, tagsMerged := 7, memoriesCleaned := 0,
         storageOptimized := false, error := some "boom" }, 2) :=
  (reorganize_error_policy failingCleanupOps
      { mergeSimilarTags := true, cleanupOldMemories := true,
        optimizeStorage := true, maxMemories := none } 0).2.1
    7 1 "boom" 2 rfl rfl

/-! The tag-merge sub-operation never rewrites records (claim C1). -/

/-- C1: on the specification's own example store - distinct records tagged
"api" and "api-server", which do form one similarity group of size two - the
code's reorganize with the merge flag set computes the group but returns
tagsMerged zero, leaves the store untouched, and a search for the secondary
tag "api-server" still finds its record; the record rewrite is an
unimplemented TODO in the source. -/
theorem mergeSimilarTags_never_rewrites :
    groupSimilarTags (getAllTagsDb mergeExampleStore) = [["api", "api-server"]] ∧
    (reorganizeR
        { mergeSimilarTags := true, cleanupOldMemories := false,
          optimizeStorage := false, maxMemories := none } mergeExampleStore).1.tagsMerged = 0 ∧
    (reorganizeR
        { mergeSimilarTags := true, cleanupOldMemories := false,
          optimizeStorage := false, maxMemories := none } mergeExampleStore).2
      = mergeExampleStore ∧
    (searchMemoriesDb apiServerSearch mergeExampleStore).total = 1 := by
  refine ⟨by decide, by decide, by decide, by decide⟩

/-- Witness for C5 on a whitespace-only memorize request against the fresh
store: the call fails and the store stays fresh. -/
theorem memorize_validation_witness :
    (∃ e, (memorizeR 500 blankMemorize 0 emptyStore).1 = Except.error e) ∧
    (memorizeR 500 blankMemorize 0 emptyStore).2 = emptyStore :=
  ⟨(memorize_validation 500 blankMemorize 0 emptyStore).1.mpr (by decide),
   (memorize_validation 500 blankMemorize 0 emptyStore).2 (by decide)⟩

/-! Length preservation of the stable sort, and the pagination contract
(claim C4). -/

theorem insertStable_length {α : Type} (cmp : α → α → Int) (x : α) (l : List α) :
    (insertStable cmp x l).length = l.length + 1 := by
  induction l with
  | nil => rfl
  | cons y ys ih =>
    unfold insertStable
    by_cases h : 0 ≤ cmp y x
    · rw [if_pos h]
      simp
    · rw [if_neg h]
      simp only [List.length_cons, ih]

theorem sortStable_length {α : Type} (cmp : α → α → Int) (l : List α) :
    (sortStable cmp l).length = l.length := by
  induction l with
  | nil => rfl
  | cons x xs ih =>
    unfold sortStable
    rw [insertStable_length, ih]
    rfl

/-- C4: the search result's `hasMore` flag holds exactly when the offset plus
the number of returned records is below `total`, and `total` is the size of
the filtered set before pagination (the source computes the flag from the
limit, which coincides because the returned page is the limit-sized slice at
the offset). -/
theorem searchMemories_pagination (p : MemorySearchParams) (s : Store) :
    (searchMemoriesDb p s).total = (filterMemories p s.memories).length ∧
    ((searchMemoriesDb p s).hasMore = true ↔
      effOffset p + (searchMemoriesDb p s).memories.length
        < (searchMemoriesDb p s).total) := by
  unfold searchMemoriesDb
  simp only
  refine ⟨sortStable_length _ _, ?_⟩
  rw [decide_eq_true_iff]
  simp only [List.length_take, List.length_drop, sortStable_length]
  omega

/-! Access bump of getMemory (claim C8). -/

/-- C8: when the id is present, getMemory returns the record with its access
count incremented by exactly one and `lastAccessedAt` set to the clock, while
id, text, metadata and creation date are unchanged, the store keeps its size,
and every record with a different id is untouched in both directions; when the
id is absent the whole store is returned unchanged with a miss. -/
theorem getMemory_access_bump (id : String) (now : Nat) (s : Store) :
    (∀ m, s.memories.find? (fun x => x.id = id) = some m →
      ∃ r, (getMemoryDb id now s).1 = some r ∧
        r.accessCount = m.accessCount + 1 ∧
        r.lastAccessedAt = now ∧
        r.id = m.id ∧ r.text = m.text ∧ r.metadata = m.metadata ∧
        r.createdAt = m.createdAt ∧
        r ∈ (getMemoryDb id now s).2.memories ∧
        (getMemoryDb id now s).2.memories.length = s.memories.length ∧
        (∀ c ∈ s.memories, c.id ≠ id → c ∈ (getMemoryDb id now s).2.memories) ∧
        (∀ c ∈ (getMemoryDb id now s).2.memories, c.id ≠ id → c ∈ s.memories)) ∧
    (s.memories.find? (fun x => x.id = id) = none →
      getMemoryDb id now s = (none, s)) := by
  constructor
  · intro m hm
    have hmid : m.id = id := by
      have := List.find?_some hm
      simpa using this
    have hmem : m ∈ s.memories := List.mem_of_find?_eq_some hm
    unfold getMemoryDb
    rw [hm]
    refine ⟨_, rfl, rfl, rfl, rfl, rfl, rfl, rfl, ?_, ?_, ?_, ?_⟩
    · have h8 := List.mem_map_of_mem
        (fun x : MemoryChunk => if x.id = id then
          { m with
            accessCount := m.accessCount + 1
            lastAccessedAt := now
            updatedAt := now } else x) hmem
      simp only [if_pos hmid] at h8
      exact h8
    · simp
    · intro c hc hcid
      have h10 := List.mem_map_of_mem
        (fun x : MemoryChunk => if x.id = id then
          { m with
            accessCount := m.accessCount + 1
            lastAccessedAt := now
            updatedAt := now } else x) hc
      simp only [if_neg hcid] at h10
      exact h10
    · intro c hc hcid
      simp only [List.mem_map] at hc
      obtain ⟨x, hx, hxc⟩ := hc
      by_cases hxid : x.id = id
      · rw [if_pos hxid] at hxc
        subst hxc
        exact absurd hmid hcid
      · rw [if_neg hxid] at hxc
        subst hxc
        exact hx
  · intro hm
    unfold getMemoryDb
    rw [hm]

/-- Witness for C8 against the tag-merge example store: fetching "mem-1"
yields the record at access count one, and fetching a missing id returns the
store unchanged. -/
theorem getMemory_access_bump_witness :
    (∃ r, (getMemoryDb "mem-1" 99 mergeExampleStore).1 = some r ∧
      r.accessCount = apiRecord.accessCount + 1 ∧
      r.lastAccessedAt = 99 ∧
      r.id = apiRecord.id ∧ r.text = apiRecord.text ∧
      r.metadata = apiRecord.metadata ∧ r.createdAt = apiRecord.createdAt ∧
      r ∈ (getMemoryDb "mem-1" 99 mergeExampleStore).2.memories ∧
      (getMemoryDb "mem-1" 99 mergeExampleStore).2.memories.length
        = mergeExampleStore.memories.length ∧
      (∀ c ∈ mergeExampleStore.memories, c.id ≠ "mem-1" →
        c ∈ (getMemoryDb "mem-1" 99 mergeExampleStore).2.memories) ∧
      (∀ c ∈ (getMemoryDb "mem-1" 99 mergeExampleStore).2.memories,
        c.id ≠ "mem-1" → c ∈ mergeExampleStore.memories)) ∧
    getMemoryDb "mem-9" 99 mergeExampleStore = (none, mergeExampleStore) :=
  ⟨(getMemory_access_bump "mem-1" 99 mergeExampleStore).1 apiRecord (by decide),
   (getMemory_access_bump "mem-9" 99 mergeExampleStore).2 (by decide)⟩

/-! Case-sensitive tag filtering (claim C10). -/

theorem map_eq_self_forall {α : Type} (f : α → α) (l : List α)
    (h : l.map f = l) : ∀ c ∈ l, f c = c := by
  induction l with
  | nil => intro c hc; cases hc
  | cons a t ih =>
    simp only [List.map_cons, List.cons.injEq] at h
    intro c hc
    rcases List.mem_cons.mp hc with rfl | hct
    · exact h.1
    · exact ih h.2 c hct

theorem jsLowerChar_ne_of_upper {c : Char} (h : isUpperChar c = true) :
    jsLowerChar c ≠ c := by
  unfold jsLowerChar
  rw [if_pos h]
  unfold isUpperChar at h
  simp only [Bool.and_eq_true, decide_eq_true_eq] at h
  have hval : (Char.ofNat (c.toNat + 32)).toNat = c.toNat + 32 := by
    unfold Char.ofNat
    rw [dif_pos]
    · rfl
    · refine Or.inl ?_
      have h2 : c.toNat ≤ 90 := h.2
      omega
  intro heq
  have := congrArg Char.toNat heq
  rw [hval] at this
  omega

theorem lowered_no_upper {t : String} (hfix : jsToLower t = t) :
    ∀ c ∈ t.data, isUpperChar c = false := by
  intro c hc
  have hdata : lowerList t.data = t.data := congrArg String.data hfix
  have hfixc := map_eq_self_forall jsLowerChar t.data hdata c hc
  by_contra hup
  simp only [Bool.not_eq_false] at hup
  exact jsLowerChar_ne_of_upper hup hfixc

/-- C10: the tag filter matches a record exactly when it carries at least one
requested tag under exact, case-sensitive string equality; consequently, over
any store whose records carry only lowercase-fixed tags (which memorize
guarantees), a search whose requested tag list is nonempty and whose every
requested tag contains an uppercase letter returns a zero total. -/
theorem searchMemories_tag_case (p : MemorySearchParams) (ts : List String)
    (s : Store) :
    (∀ m : MemoryChunk, matchesTags ts m = true ↔ ∃ t ∈ ts, t ∈ m.metadata.tags) ∧
    (p.tags = some ts → ts ≠ [] →
      (∀ m ∈ s.memories, ∀ t ∈ m.metadata.tags, jsToLower t = t) →
      (∀ t ∈ ts, ∃ c ∈ t.data, isUpperChar c = true) →
      (searchMemoriesDb p s).total = 0) := by
  have hmatch : ∀ m : MemoryChunk,
      matchesTags ts m = true ↔ ∃ t ∈ ts, t ∈ m.metadata.tags := by
    intro m
    unfold matchesTags
    rw [List.any_eq_true]
    constructor
    · rintro ⟨t, ht, hc⟩
      exact ⟨t, ht, by simpa using hc⟩
    · rintro ⟨t, ht, hc⟩
      exact ⟨t, ht, by simpa using hc⟩
  refine ⟨hmatch, ?_⟩
  intro hts hne hlow hup
  have hfilter : s.memories.filter (matchesTags ts) = [] := by
    rw [List.filter_eq_nil_iff]
    intro m hm hmt
    obtain ⟨t, htts, htm⟩ := (hmatch m).mp hmt
    obtain ⟨c, hct, hcup⟩ := hup t htts
    have := lowered_no_upper (hlow m hm t htm) c hct
    rw [hcup] at this
    cases this
  have hempty : filterMemories p s.memories = [] := by
    unfold filterMemories
    rw [hts]
    simp only
    rw [if_pos (by cases ts with | nil => exact absurd rfl hne | cons a b => simp)]
    rw [hfilter]
    cases p.category <;> cases p.dateFrom <;> cases p.dateTo <;> cases p.query <;>
      simp only [List.filter_nil] <;> split <;> simp
  have := (searchMemories_pagination p s).1
  rw [hempty] at this
  simpa using this

/-- Witness for C10: searching the tag-merge example store, whose tags are all
lowercase, for the tag "API" returns a zero total. -/
theorem searchMemories_tag_case_witness :
    (searchMemoriesDb upperTagSearch mergeExampleStore).total = 0 :=
  (searchMemories_tag_case upperTagSearch ["API"] mergeExampleStore).2
    rfl (by decide) (by decide) (by decide)

/-! Trim algebra needed for the chunker bound (claim C2). -/

theorem dropWhile_idem (p : Char → Bool) (l : List Char) :
    (l.dropWhile p).dropWhile p = l.dropWhile p := by
  induction l with
  | nil => rfl
  | cons c t ih =>
    by_cases h : p c
    · simp only [List.dropWhile_cons, h, if_true]
      exact ih
    · simp [List.dropWhile_cons, h]

theorem dropWhile_append_singleton (p : Char → Bool) {c : Char}
    (h : p c = false) (r : List Char) :
    ∃ u, (r ++ [c]).dropWhile p = u ++ [c] := by
  induction r with
  | nil => exact ⟨[], by simp [List.dropWhile_cons, h]⟩
  | cons a r' ih =>
    by_cases ha : p a
    · obtain ⟨u, hu⟩ := ih
      exact ⟨u, by simp [List.dropWhile_cons, ha, hu]⟩
    · exact ⟨a :: r', by simp [List.dropWhile_cons, ha]⟩

theorem head_dropWhile_false (p : Char → Bool) :
    ∀ l : List Char, ∀ c t, l.dropWhile p = c :: t → p c = false := by
  intro l
  induction l with
  | nil => intro c t h; cases h
  | cons a l' ih =>
    intro c t h
    by_cases ha : p a
    · rw [List.dropWhile_cons, if_pos ha] at h
      exact ih c t h
    · rw [List.dropWhile_cons, if_neg ha] at h
      cases h
      simpa using ha

theorem trimList_length_le (l : List Char) : (trimList l).length ≤ l.length := by
  unfold trimList
  calc (((l.dropWhile isWsChar).reverse.dropWhile isWsChar).reverse).length
      = ((l.dropWhile isWsChar).reverse.dropWhile isWsChar).length :=
        List.length_reverse _
    _ ≤ (l.dropWhile isWsChar).reverse.length := dropWhile_length_le _ _
    _ = (l.dropWhile isWsChar).length := List.length_reverse _
    _ ≤ l.length := dropWhile_length_le _ _

theorem trimList_idem (l : List Char) : trimList (trimList l) = trimList l := by
  rcases hA : l.dropWhile isWsChar with _ | ⟨c, t⟩
  · have h1 : trimList l = [] := by
      unfold trimList
      rw [hA]
      rfl
    rw [h1]
    rfl
  · have hc : isWsChar c = false := head_dropWhile_false isWsChar l c t hA
    obtain ⟨u, hu⟩ := dropWhile_append_singleton isWsChar hc t.reverse
    have h1 : trimList l = c :: u.reverse := by
      unfold trimList
      rw [hA]
      rw [show (c :: t).reverse = t.reverse ++ [c] by simp]
      rw [hu]
      simp
    rw [h1]
    unfold trimList
    rw [List.dropWhile_cons, if_neg (by simp [hc])]
    rw [show (c :: u.reverse).reverse = u ++ [c] by simp]
    have h2 : (u ++ [c]).dropWhile isWsChar = u ++ [c] := by
      have := dropWhile_idem isWsChar (t.reverse ++ [c])
      rw [hu] at this
      exact this
    rw [h2]
    simp

theorem trimList_fixed_parts {l : List Char} (h : trimList l = l) :
    l.dropWhile isWsChar = l ∧ l.reverse.dropWhile isWsChar = l.reverse := by
  have hlen := congrArg List.length h
  have h1 : ((l.dropWhile isWsChar).reverse.dropWhile isWsChar).length
      ≤ (l.dropWhile isWsChar).length := by
    calc ((l.dropWhile isWsChar).reverse.dropWhile isWsChar).length
        ≤ (l.dropWhile isWsChar).reverse.length := dropWhile_length_le _ _
      _ = (l.dropWhile isWsChar).length := List.length_reverse _
  have h2 : (l.dropWhile isWsChar).length ≤ l.length := dropWhile_length_le _ _
  have h3 : (trimList l).length
      = ((l.dropWhile isWsChar).reverse.dropWhile isWsChar).length := by
    unfold trimList
    exact List.length_reverse _
  have hfrontlen : (l.dropWhile isWsChar).length = l.length := by
    rw [hlen] at h3
    omega
  have hfront : l.dropWhile isWsChar = l :=
    (List.dropWhile_sublist isWsChar).eq_of_length hfrontlen
  refine ⟨hfront, ?_⟩
  have h4 : trimList l = (l.reverse.dropWhile isWsChar).reverse := by
    unfold trimList
    rw [hfront]
  have h5 : (l.reverse.dropWhile isWsChar).length = l.reverse.length := by
    have := congrArg List.length h4
    rw [hlen] at this
    simp only [List.length_reverse] at this ⊢
    omega
  exact (List.dropWhile_sublist isWsChar).eq_of_length h5

theorem dropWhile_fixed_head {c : Char} {cs : List Char}
    (h : (c :: cs).dropWhile isWsChar = c :: cs) : isWsChar c = false := by
  by_contra hc
  simp only [Bool.not_eq_false] at hc
  rw [List.dropWhile_cons, if_pos hc] at h
  have := congrArg List.length h
  have hle := dropWhile_length_le isWsChar cs
  simp only [List.length_cons] at this
  omega

theorem trim_fixed_append {cur t : List Char} (hcur : trimList cur = cur)
    (hcne : cur ≠ []) (ht : trimList t = t) (htne : t ≠ []) :
    trimList (cur ++ ' ' :: t) = cur ++ ' ' :: t := by
  obtain ⟨hcf, hcb⟩ := trimList_fixed_parts hcur
  obtain ⟨htf, htb⟩ := trimList_fixed_parts ht
  rcases cur with _ | ⟨c, cs⟩
  · exact absurd rfl hcne
  have hc : isWsChar c = false := dropWhile_fixed_head hcf
  have hfront : ((c :: cs) ++ ' ' :: t).dropWhile isWsChar = (c :: cs) ++ ' ' :: t := by
    rw [List.cons_append, List.dropWhile_cons, if_neg (by simp [hc])]
  have hback : ((c :: cs) ++ ' ' :: t).reverse.dropWhile isWsChar
      = ((c :: cs) ++ ' ' :: t).reverse := by
    rcases hrt : t.reverse with _ | ⟨e, es⟩
    · exact absurd (by simpa using congrArg List.reverse hrt) htne
    · have he : isWsChar e = false := by
        rw [hrt] at htb
        exact dropWhile_fixed_head htb
      rw [show ((c :: cs) ++ ' ' :: t).reverse = t.reverse ++ [' '] ++ (c :: cs).reverse by
        simp]
      rw [hrt]
      rw [List.cons_append, List.cons_append, List.dropWhile_cons, if_neg (by simp [he])]
  unfold trimList
  rw [hfront, hback]
  simp

/-! Whitespace normalisation leaves no newline, so the paragraph split is the
identity. -/

theorem mem_collapseWsAux : ∀ (b : Bool) (l : List Char) (c : Char),
    c ∈ collapseWsAux b l → c = ' ' ∨ isWsChar c = false := by
  intro b l
  induction l generalizing b with
  | nil => intro c hc; cases hc
  | cons a t ih =>
    intro c hc
    unfold collapseWsAux at hc
    by_cases ha : isWsChar a
    · rw [if_pos ha] at hc
      by_cases hb : b
      · rw [if_pos hb] at hc
        exact ih true c hc
      · rw [if_neg hb] at hc
        rcases List.mem_cons.mp hc with rfl | hct
        · exact Or.inl rfl
        · exact ih true c hct
    · rw [if_neg ha] at hc
      rcases List.mem_cons.mp hc with rfl | hct
      · exact Or.inr (by simpa using ha)
      · exact ih false c hct

theorem normalizeText_no_newline (l : List Char) :
    ∀ c ∈ normalizeText l, c ≠ '\n' := by
  intro c hc
  have h1 : c ∈ collapseWs l := mem_trimList hc
  rcases mem_collapseWsAux false l c h1 with rfl | hws
  · decide
  · intro hn
    subst hn
    have : isWsChar '\n' = true := by decide
    rw [this] at hws
    cases hws

theorem blankMatch_none {c : Char} (rest : List Char) (h : c ≠ '\n') :
    blankMatch (c :: rest) = none := by
  simp only [blankMatch, if_neg h]

theorem paraSplitAux_no_newline :
    ∀ (fuel : Nat) (acc l : List Char), l.length ≤ fuel →
      (∀ c ∈ l, c ≠ '\n') → paraSplitAux fuel acc l = [acc.reverse ++ l] := by
  intro fuel
  induction fuel with
  | zero =>
    intro acc l hlen _
    have : l = [] := List.length_eq_zero.mp (by omega)
    subst this
    simp [paraSplitAux]
  | succ fuel ih =>
    intro acc l hlen hnl
    rcases l with _ | ⟨c, rest⟩
    · simp [paraSplitAux]
    · unfold paraSplitAux
      rw [blankMatch_none rest (hnl c (List.mem_cons_self c rest))]
      rw [ih (c :: acc) rest (by simp only [List.length_cons] at hlen; omega)
        (fun d hd => hnl d (List.mem_cons_of_mem c hd))]
      simp

theorem paraSplit_no_newline {l : List Char} (h : ∀ c ∈ l, c ≠ '\n') :
    paraSplit l = [l] := by
  unfold paraSplit
  rw [paraSplitAux_no_newline l.length [] l le_rfl h]
  rfl

/-! The greedy sentence packer and the chunk bound. -/

theorem packLoop_bound (size : Nat) :
    ∀ (sents : List (List Char)) (cur : List Char), trimList cur = cur →
      ∀ c ∈ packLoop size sents cur,
        c.length ≤ size + 1 ∨ (∃ s0 ∈ sents, c = trimList s0) ∨ c = cur := by
  intro sents
  induction sents with
  | nil =>
    intro cur hcur c hc
    unfold packLoop at hc
    by_cases h0 : 0 < cur.length
    · rw [if_pos h0] at hc
      rcases List.mem_singleton.mp hc with rfl
      exact Or.inr (Or.inr hcur)
    · rw [if_neg h0] at hc
      cases hc
  | cons s rest ih =>
    intro cur hcur c hc
    unfold packLoop at hc
    by_cases h1 : (trimList s).length = 0
    · rw [if_pos h1] at hc
      rcases ih cur hcur c hc with h | ⟨s0, hs0, hcs⟩ | h
      · exact Or.inl h
      · exact Or.inr (Or.inl ⟨s0, List.mem_cons_of_mem s hs0, hcs⟩)
      · exact Or.inr (Or.inr h)
    · rw [if_neg h1] at hc
      by_cases h2 : size < cur.length + (trimList s).length
      · rw [if_pos h2] at hc
        rcases List.mem_append.mp hc with hflush | hrec
        · by_cases h0 : 0 < cur.length
          · rw [if_pos h0] at hflush
            rcases List.mem_singleton.mp hflush with rfl
            exact Or.inr (Or.inr hcur)
          · rw [if_neg h0] at hflush
            cases hflush
        · rcases ih (trimList s) (trimList_idem s) c hrec with h | ⟨s0, hs0, hcs⟩ | h
          · exact Or.inl h
          · exact Or.inr (Or.inl ⟨s0, List.mem_cons_of_mem s hs0, hcs⟩)
          · exact Or.inr (Or.inl ⟨s, List.mem_cons_self s rest, h⟩)
      · rw [if_neg h2] at hc
        have hcur2 : trimList (if 0 < cur.length then cur ++ ' ' :: trimList s
            else trimList s) = (if 0 < cur.length then cur ++ ' ' :: trimList s
            else trimList s) := by
          by_cases h0 : 0 < cur.length
          · rw [if_pos h0]
            exact trim_fixed_append hcur
              (by intro hnil; rw [hnil] at h0; cases h0)
              (trimList_idem s)
              (by intro hnil; rw [hnil] at h1; exact h1 rfl)
          · rw [if_neg h0]
            exact trimList_idem s
        rcases ih _ hcur2 c hc with h | ⟨s0, hs0, hcs⟩ | h
        · exact Or.inl h
        · exact Or.inr (Or.inl ⟨s0, List.mem_cons_of_mem s hs0, hcs⟩)
        · by_cases h0 : 0 < cur.length
          · rw [if_pos h0] at h
            subst h
            left
            simp only [List.length_append, List.length_cons]
            omega
          · rw [if_neg h0] at h
            subst h
            exact Or.inr (Or.inl ⟨s, List.mem_cons_self s rest, rfl⟩)

/-- C2 (amended): every chunk emitted by the chunker has length at most
maxChunkSize plus one - the greedy packer's overflow test ignores the joining
space, so a multi-sentence chunk can exceed the limit by exactly one - except
a chunk that is a single trimmed input sentence whose own length exceeds the
limit, which is emitted whole, never truncated. -/
theorem splitTextIntoChunks_bound (size : Nat) (text : String) :
    ∀ c ∈ splitTextIntoChunks size text,
      c.length ≤ size + 1 ∨
        ((∃ s0 ∈ sentSplit (normalizeText text.data), c.data = trimList s0) ∧
          size < c.length) := by
  intro c hc
  unfold splitTextIntoChunks at hc
  rcases List.mem_map.mp hc with ⟨cl, hcl, rfl⟩
  have hclen : (List.asString cl).length = cl.length := rfl
  have hcdata : (List.asString cl).data = cl := rfl
  unfold splitChunks at hcl
  rw [paraSplit_no_newline (normalizeText_no_newline text.data)] at hcl
  simp only [List.flatMap_cons, List.flatMap_nil, List.append_nil] at hcl
  unfold processParagraph at hcl
  by_cases hempt : (trimList (normalizeText text.data)).length = 0
  · rw [if_pos hempt] at hcl
    cases hcl
  · rw [if_neg hempt] at hcl
    by_cases hshort : (normalizeText text.data).length ≤ size
    · rw [if_pos hshort] at hcl
      rcases List.mem_singleton.mp hcl with rfl
      left
      rw [hclen]
      have := trimList_length_le (normalizeText text.data)
      omega
    · rw [if_neg hshort] at hcl
      have hmain := packLoop_bound size (sentSplit (normalizeText text.data)) [] rfl cl hcl
      by_cases hbound : cl.length ≤ size + 1
      · left
        rw [hclen]
        exact hbound
      · rcases hmain with h | ⟨s0, hs0, hcs⟩ | h
        · exact absurd h hbound
        · right
          refine ⟨⟨s0, hs0, by rw [hcdata]; exact hcs⟩, ?_⟩
          rw [hclen]
          omega
        · rw [h] at hbound
          exact absurd (by simp) hbound

/-- C2, counterexample to the claim as stated: with maxChunkSize 9 and the
text "aaaa. bbb." (two sentences of lengths five and four) the chunker emits
the single chunk "aaaa. bbb." of length ten - above the limit - although that
chunk is not a single input sentence; the greedy packer's overflow test does
not count the joining space. -/
theorem splitTextIntoChunks_c2_cex :
    splitTextIntoChunks 9 "aaaa. bbb." = ["aaaa. bbb."] ∧
    ("aaaa. bbb." : String).length = 10 ∧
    sentSplit (normalizeText ("aaaa. bbb." : String).data)
      = ["aaaa.".data, "bbb.".data] ∧
    ¬ ∃ s0 ∈ sentSplit (normalizeText ("aaaa. bbb." : String).data),
        ("aaaa. bbb." : String).data = trimList s0 := by
  refine ⟨by decide, by decide, by decide, by decide⟩

/-- Witness for C2 at the same concrete input: the amended bound applied to the
oversized chunk picks the plus-one slack disjunct. -/
theorem splitTextIntoChunks_bound_witness :
    ("aaaa. bbb." : String).length ≤ 9 + 1 ∨
      ((∃ s0 ∈ sentSplit (normalizeText ("aaaa. bbb." : String).data),
          ("aaaa. bbb." : String).data = trimList s0) ∧
        9 < ("aaaa. bbb." : String).length) :=
  splitTextIntoChunks_bound 9 "aaaa. bbb." "aaaa. bbb." (by decide)

/-! Permutation and sortedness of the stable sort, and the cleanup contract
(claim C7). -/

theorem insertStable_perm {α : Type} (cmp : α → α → Int) (x : α) (l : List α) :
    (insertStable cmp x l).Perm (x :: l) := by
  induction l with
  | nil => exact List.Perm.refl _
  | cons y ys ih =>
    unfold insertStable
    by_cases h : 0 ≤ cmp y x
    · rw [if_pos h]
    · rw [if_neg h]
      exact List.Perm.trans (List.Perm.cons y ih) (List.Perm.swap x y ys)

theorem sortStable_perm {α : Type} (cmp : α → α → Int) (l : List α) :
    (sortStable cmp l).Perm l := by
  induction l with
  | nil => exact List.Perm.refl _
  | cons x xs ih =>
    unfold sortStable
    exact List.Perm.trans (insertStable_perm cmp x (sortStable cmp xs))
      (List.Perm.cons x ih)

theorem mem_insertStable {α : Type} (cmp : α → α → Int) (x : α) (l : List α)
    (z : α) : z ∈ insertStable cmp x l ↔ z = x ∨ z ∈ l := by
  rw [(insertStable_perm cmp x l).mem_iff]
  exact List.mem_cons

theorem insertStable_pairwise {α : Type} (cmp : α → α → Int)
    (hanti : ∀ a b, cmp a b = -cmp b a)
    (htrans : ∀ a b c, cmp a b ≤ 0 → cmp b c ≤ 0 → cmp a c ≤ 0)
    (x : α) (l : List α) (hl : l.Pairwise (fun a b => cmp a b ≤ 0)) :
    (insertStable cmp x l).Pairwise (fun a b => cmp a b ≤ 0) := by
  induction l with
  | nil => simp [insertStable]
  | cons y ys ih =>
    rcases List.pairwise_cons.mp hl with ⟨hy, hys⟩
    unfold insertStable
    by_cases h : 0 ≤ cmp y x
    · rw [if_pos h]
      refine List.pairwise_cons.mpr ⟨?_, hl⟩
      intro z hz
      have hxy : cmp x y ≤ 0 := by
        have := hanti x y
        omega
      rcases List.mem_cons.mp hz with rfl | hzys
      · exact hxy
      · exact htrans x y z hxy (hy z hzys)
    · rw [if_neg h]
      refine List.pairwise_cons.mpr ⟨?_, ih hys⟩
      intro z hz
      rcases (mem_insertStable cmp x ys z).mp hz with rfl | hzys
      · omega
      · exact hy z hzys

theorem sortStable_pairwise {α : Type} (cmp : α → α → Int)
    (hanti : ∀ a b, cmp a b = -cmp b a)
    (htrans : ∀ a b c, cmp a b ≤ 0 → cmp b c ≤ 0 → cmp a c ≤ 0)
    (l : List α) :
    (sortStable cmp l).Pairwise (fun a b => cmp a b ≤ 0) := by
  induction l with
  | nil => simp [sortStable]
  | cons x xs ih =>
    unfold sortStable
    exact insertStable_pairwise cmp hanti htrans x (sortStable cmp xs) ih

theorem cleanupCmp_anti (a b : MemoryChunk) : cleanupCmp a b = -cleanupCmp b a := by
  unfold cleanupCmp
  split_ifs <;> omega

theorem cleanupCmp_trans (a b c : MemoryChunk)
    (h1 : cleanupCmp a b ≤ 0) (h2 : cleanupCmp b c ≤ 0) : cleanupCmp a c ≤ 0 := by
  unfold cleanupCmp at h1 h2 ⊢
  split_ifs at h1 h2 ⊢ <;> omega

theorem cleanupCmp_le_iff (a b : MemoryChunk) :
    cleanupCmp a b ≤ 0 ↔
      a.accessCount < b.accessCount ∨
        (a.accessCount = b.accessCount ∧ a.createdAt ≤ b.createdAt) := by
  unfold cleanupCmp
  split_ifs with h <;> omega

/-- C7: with an effective cap of `maxMemories` (which the front end keeps at
least one) or 1000 when absent, cleanup is a no-op returning zero when the
store is within the cap; otherwise it deletes exactly the excess, the
survivors are the original records in their order, and every deleted record
precedes every survivor under ascending access count with ascending creation
date as tie-break. -/
theorem cleanupOldMemories_spec (maxM : Option Nat) (s : Store)
    (hpos : ∀ m, maxM = some m → 1 ≤ m)
    (hids : (s.memories.map (fun x => x.id)).Nodup) :
    (s.memories.length ≤ maxM.getD 1000 → cleanupOldMemoriesR maxM s = (0, s)) ∧
    (maxM.getD 1000 < s.memories.length →
      (cleanupOldMemoriesR maxM s).1 = s.memories.length - maxM.getD 1000 ∧
      (cleanupOldMemoriesR maxM s).2.memories.length = maxM.getD 1000 ∧
      (cleanupOldMemoriesR maxM s).2.memories.Sublist s.memories ∧
      (∀ x ∈ s.memories, x ∉ (cleanupOldMemoriesR maxM s).2.memories →
        ∀ y ∈ (cleanupOldMemoriesR maxM s).2.memories,
          x.accessCount < y.accessCount ∨
            (x.accessCount = y.accessCount ∧ x.createdAt ≤ y.createdAt))) := by
  have hcappos : 1 ≤ maxM.getD 1000 := by
    cases maxM with
    | none => simp
    | some m => simpa using hpos m rfl
  have hcap2 : cleanupOldMemoriesR maxM s
      = (if s.memories.length ≤ maxM.getD 1000 then (0, s)
         else cleanupDb (some (maxM.getD 1000)) s) := by
    cases maxM with
    | none => rfl
    | some m =>
      have hm1 := hpos m rfl
      simp only [cleanupOldMemoriesR, Option.getD_some]
      rw [if_neg (show ¬ m = 0 by omega)]
      rfl
  constructor
  · intro hle
    rw [hcap2, if_pos hle]
  · intro hlt
    rw [hcap2, if_neg (by omega)]
    have hstep : cleanupDb (some (maxM.getD 1000)) s
        = (((sortStable cleanupCmp s.memories).take
              (s.memories.length - maxM.getD 1000)).length,
           { s with memories := s.memories.filter (fun x =>
               !((((sortStable cleanupCmp s.memories).take
                 (s.memories.length - maxM.getD 1000)).map
                 (fun y => y.id)).contains x.id)) }) := by
      simp only [cleanupDb]
      rw [if_neg (by omega), if_neg (by omega)]
    rw [hstep]
    simp only
    set cap := maxM.getD 1000 with hcapdef
    set sorted := sortStable cleanupCmp s.memories with hsorted
    set toRemove := sorted.take (s.memories.length - cap) with htoRemove
    have hperm : sorted.Perm s.memories := sortStable_perm cleanupCmp s.memories
    have hsortlen : sorted.length = s.memories.length := hperm.length_eq
    have hRlen : toRemove.length = s.memories.length - cap := by
      rw [htoRemove, List.length_take, hsortlen]
      omega
    have hRsub : ∀ x ∈ toRemove, x ∈ s.memories := by
      intro x hx
      exact hperm.mem_iff.mp ((List.take_sublist _ _).mem hx)
    have hNodMem : s.memories.Nodup := hids.of_map _
    have hNodSorted : sorted.Nodup := hperm.nodup_iff.mpr hNodMem
    have hidmem : ∀ x ∈ s.memories,
        (x.id ∈ toRemove.map (fun y => y.id) ↔ x ∈ toRemove) := by
      intro x hx
      constructor
      · intro hxid
        rcases List.mem_map.mp hxid with ⟨t, ht, htid⟩
        have := List.inj_on_of_nodup_map hids hx (hRsub t ht) htid.symm
        rw [this]
        exact ht
      · intro hxr
        exact List.mem_map_of_mem _ hxr
    have hpred : ∀ x ∈ s.memories,
        ((!(toRemove.map (fun y => y.id)).contains x.id) = true ↔ x ∉ toRemove) := by
      intro x hx
      rw [Bool.not_eq_true', ← Bool.not_eq_true]
      rw [List.elem_iff]
      exact not_congr (hidmem x hx)
    have hsplit : toRemove ++ sorted.drop (s.memories.length - cap) = sorted :=
      List.take_append_drop _ _
    have hdisj : ∀ x ∈ toRemove, x ∉ sorted.drop (s.memories.length - cap) := by
      have := hNodSorted
      rw [← hsplit, List.nodup_append] at this
      intro x hx
      exact this.2.2 hx
    have hdropmem : ∀ y ∈ sorted.drop (s.memories.length - cap), y ∈ s.memories := by
      intro y hy
      exact hperm.mem_iff.mp ((List.drop_sublist _ _).mem hy)
    have hfiltersorted :
        sorted.filter (fun x => !(toRemove.map (fun y => y.id)).contains x.id)
          = sorted.drop (s.memories.length - cap) := by
      conv_lhs => rw [← hsplit]
      rw [List.filter_append]
      have hfr : toRemove.filter
          (fun x => !(toRemove.map (fun y => y.id)).contains x.id) = [] := by
        rw [List.filter_eq_nil_iff]
        intro x hx
        rw [(hpred x (hRsub x hx))]
        exact fun hcon => hcon hx
      have hfd : (sorted.drop (s.memories.length - cap)).filter
          (fun x => !(toRemove.map (fun y => y.id)).contains x.id)
          = sorted.drop (s.memories.length - cap) := by
        rw [List.filter_eq_self]
        intro x hx
        rw [(hpred x (hdropmem x hx))]
        intro hxr
        exact hdisj x hxr hx
      rw [hfr, hfd]
      simp
    have hkeptlen :
        (s.memories.filter
          (fun x => !(toRemove.map (fun y => y.id)).contains x.id)).length = cap := by
      have hp := (hperm.filter
        (fun x => !(toRemove.map (fun y => y.id)).contains x.id)).length_eq
      rw [hfiltersorted] at hp
      rw [← hp, List.length_drop, hsortlen]
      omega
    refine ⟨hRlen, hkeptlen, List.filter_sublist _, ?_⟩
    intro x hx hxnot y hy
    have hxrem : x ∈ toRemove := by
      by_contra hxr
      exact hxnot (List.mem_filter.mpr ⟨hx, (hpred x hx).mpr hxr⟩)
    have hykept := List.mem_filter.mp hy
    have hyrem : y ∉ toRemove := (hpred y hykept.1).mp hykept.2
    have hydrop : y ∈ sorted.drop (s.memories.length - cap) := by
      have hysorted : y ∈ sorted := hperm.mem_iff.mpr hykept.1
      rw [← hsplit] at hysorted
      rcases List.mem_append.mp hysorted with h | h
      · exact absurd h hyrem
      · exact h
    have hpw : sorted.Pairwise (fun a b => cleanupCmp a b ≤ 0) :=
      sortStable_pairwise cleanupCmp cleanupCmp_anti cleanupCmp_trans s.memories
    rw [← hsplit, List.pairwise_append] at hpw
    exact (cleanupCmp_le_iff x y).mp (hpw.2.2 x hxrem y hydrop)

/-- Witness for C7: capping the tag-merge example store at one record removes
exactly one - the least-accessed, oldest record - keeping the younger one. -/
theorem cleanupOldMemories_spec_witness :
    (cleanupOldMemoriesR (some 1) mergeExampleStore).1
        = mergeExampleStore.memories.length - (some 1).getD 1000 ∧
      (cleanupOldMemoriesR (some 1) mergeExampleStore).2.memories.length
        = (some 1).getD 1000 ∧
      (cleanupOldMemoriesR (some 1) mergeExampleStore).2.memories.Sublist
        mergeExampleStore.memories ∧
      (∀ x ∈ mergeExampleStore.memories,
        x ∉ (cleanupOldMemoriesR (some 1) mergeExampleStore).2.memories →
        ∀ y ∈ (cleanupOldMemoriesR (some 1) mergeExampleStore).2.memories,
          x.accessCount < y.accessCount ∨
            (x.accessCount = y.accessCount ∧ x.createdAt ≤ y.createdAt)) :=
  (cleanupOldMemories_spec (some 1) mergeExampleStore
    (by intro m hm; cases hm; exact le_rfl) (by decide)).2 (by decide)

/-! Injectivity of the rendered record ids, and the memorize metadata
invariants (claim C9). -/

theorem tdc_shift : ∀ (fuel n : Nat) (ds : List Char),
    Nat.toDigitsCore 10 fuel n ds = Nat.toDigitsCore 10 fuel n [] ++ ds := by
  intro fuel
  induction fuel with
  | zero => intro n ds; simp [Nat.toDigitsCore]
  | succ f ih =>
    intro n ds
    simp only [Nat.toDigitsCore]
    by_cases h : n / 10 = 0
    · rw [if_pos h, if_pos h]
      rfl
    · rw [if_neg h, if_neg h]
      rw [ih (n / 10) ((n % 10).digitChar :: ds), ih (n / 10) [(n % 10).digitChar]]
      simp

theorem tdc_ne_nil : ∀ (fuel n : Nat), 0 < fuel → Nat.toDigitsCore 10 fuel n [] ≠ [] := by
  intro fuel n h
  match fuel, h with
  | f + 1, _ =>
    simp only [Nat.toDigitsCore]
    by_cases h10 : n / 10 = 0
    · rw [if_pos h10]
      simp
    · rw [if_neg h10]
      rw [tdc_shift]
      simp

theorem digitChar_inj : ∀ i < 10, ∀ j < 10, Nat.digitChar i = Nat.digitChar j → i = j := by
  decide

theorem append_singleton_inj {u v : List Char} {a b : Char}
    (h : u ++ [a] = v ++ [b]) : u = v ∧ a = b := by
  have h2 := congrArg List.reverse h
  simp only [List.reverse_append, List.reverse_singleton, List.singleton_append] at h2
  rcases List.cons.inj h2 with ⟨hab, huv⟩
  exact ⟨List.reverse_injective huv, hab⟩

theorem tdc_inj : ∀ (n m f1 f2 : Nat), 0 < f1 → 0 < f2 → n < 10 ^ f1 → m < 10 ^ f2 →
    Nat.toDigitsCore 10 f1 n [] = Nat.toDigitsCore 10 f2 m [] → n = m := by
  intro n
  induction n using Nat.strong_induction_on with
  | _ n ih =>
    intro m f1 f2 hf1 hf2 hn hm heq
    obtain ⟨g1, rfl⟩ : ∃ g, f1 = g + 1 := ⟨f1 - 1, by omega⟩
    obtain ⟨g2, rfl⟩ : ∃ g, f2 = g + 1 := ⟨f2 - 1, by omega⟩
    simp only [Nat.toDigitsCore] at heq
    have hnmod : n % 10 < 10 := Nat.mod_lt n (by omega)
    have hmmod : m % 10 < 10 := Nat.mod_lt m (by omega)
    by_cases hn10 : n / 10 = 0 <;> by_cases hm10 : m / 10 = 0
    · rw [if_pos hn10, if_pos hm10] at heq
      rcases List.cons.inj heq with ⟨hd, _⟩
      have := digitChar_inj (n % 10) hnmod (m % 10) hmmod hd
      omega
    · rw [if_pos hn10, if_neg hm10] at heq
      rw [tdc_shift] at heq
      have hg2 : 0 < g2 := by
        by_contra hg
        have : g2 = 0 := by omega
        subst this
        have : m < 10 := by simpa using hm
        exact hm10 (Nat.div_eq_of_lt this)
      have hlen := congrArg List.length heq
      simp only [List.length_append, List.length_singleton, List.length_cons,
        List.length_nil] at hlen
      have hne := tdc_ne_nil g2 (m / 10) hg2
      have : (Nat.toDigitsCore 10 g2 (m / 10) []).length ≠ 0 := by
        intro hz
        exact hne (List.length_eq_zero.mp hz)
      omega
    · rw [if_neg hn10, if_pos hm10] at heq
      rw [tdc_shift] at heq
      have hg1 : 0 < g1 := by
        by_contra hg
        have : g1 = 0 := by omega
        subst this
        have : n < 10 := by simpa using hn
        exact hn10 (Nat.div_eq_of_lt this)
      have hlen := congrArg List.length heq
      simp only [List.length_append, List.length_singleton, List.length_cons,
        List.length_nil] at hlen
      have hne := tdc_ne_nil g1 (n / 10) hg1
      have : (Nat.toDigitsCore 10 g1 (n / 10) []).length ≠ 0 := by
        intro hz
        exact hne (List.length_eq_zero.mp hz)
      omega
    · rw [if_neg hn10, if_neg hm10] at heq
      rw [tdc_shift g1 (n / 10) [(n % 10).digitChar],
        tdc_shift g2 (m / 10) [(m % 10).digitChar]] at heq
      rcases append_singleton_inj heq with ⟨htails, hd⟩
      have hmod := digitChar_inj (n % 10) hnmod (m % 10) hmmod hd
      have hg1 : 0 < g1 := by
        by_contra hg
        have : g1 = 0 := by omega
        subst this
        have : n < 10 := by simpa using hn
        exact hn10 (Nat.div_eq_of_lt this)
      have hg2 : 0 < g2 := by
        by_contra hg
        have : g2 = 0 := by omega
        subst this
        have : m < 10 := by simpa using hm
        exact hm10 (Nat.div_eq_of_lt this)
      have hdivlt : n / 10 < n := Nat.div_lt_self (by omega) (by omega)
      have hbound1 : n / 10 < 10 ^ g1 := by
        rw [Nat.div_lt_iff_lt_mul (by omega : (0:Nat) < 10)]
        calc n < 10 ^ (g1 + 1) := hn
          _ = 10 ^ g1 * 10 := by rw [pow_succ]
      have hbound2 : m / 10 < 10 ^ g2 := by
        rw [Nat.div_lt_iff_lt_mul (by omega : (0:Nat) < 10)]
        calc m < 10 ^ (g2 + 1) := hm
          _ = 10 ^ g2 * 10 := by rw [pow_succ]
      have hdiv := ih (n / 10) hdivlt (m / 10) g1 g2 hg1 hg2 hbound1 hbound2 htails
      omega

theorem lt_ten_pow (n : Nat) : n < 10 ^ (n + 1) := by
  calc n < 2 ^ n := Nat.lt_two_pow n
    _ ≤ 10 ^ n := Nat.pow_le_pow_left (by omega) n
    _ ≤ 10 ^ (n + 1) := Nat.pow_le_pow_right (by omega) (by omega)

theorem natRepr_inj {n m : Nat} (h : Nat.repr n = Nat.repr m) : n = m := by
  have h2 : Nat.toDigitsCore 10 (n + 1) n [] = Nat.toDigitsCore 10 (m + 1) m [] :=
    congrArg String.data h
  exact tdc_inj n m (n + 1) (m + 1) (by omega) (by omega)
    (lt_ten_pow n) (lt_ten_pow m) h2

theorem memId_inj {a b : Nat} (h : memId a = memId b) : a = b := by
  unfold memId at h
  have h2 := congrArg String.data h
  simp only [String.data_append] at h2
  have h3 : (Nat.repr a).data = (Nat.repr b).data := by
    exact List.append_cancel_left h2
  exact natRepr_inj (String.ext h3)

theorem mem_foldl_addUnique_map {α : Type} (f : α → String) (l : List α)
    (acc : List String) (x : String) :
    x ∈ l.foldl (fun a m => addUnique a (f m)) acc ↔
      x ∈ acc ∨ ∃ m ∈ l, x = f m := by
  induction l generalizing acc with
  | nil => simp
  | cons m rest ih =>
    simp only [List.foldl_cons, ih, mem_addUnique, List.mem_cons]
    constructor
    · rintro ((hx | rfl) | ⟨m', hm', rfl⟩)
      · exact Or.inl hx
      · exact Or.inr ⟨m, Or.inl rfl, rfl⟩
      · exact Or.inr ⟨m', Or.inr hm', rfl⟩
    · rintro (hx | ⟨m', hm' | hm', rfl⟩)
      · exact Or.inl (Or.inl hx)
      · subst hm'
        exact Or.inl (Or.inr rfl)
      · exact Or.inr ⟨m', hm', rfl⟩

theorem extractTags_lower (text : String) :
    ∀ x ∈ extractTagsFromText text, jsToLower x = x := by
  intro x hx
  unfold extractTagsFromText at hx
  rw [show ([camelMatchAt, kebabMatchAt, capsMatchAt].foldl (fun acc pat =>
      (scanMatches pat text.data).foldl (fun acc2 m =>
        if 3 ≤ m.length then addUnique acc2 (lowerStr m) else acc2) acc) [])
    = ((scanMatches capsMatchAt text.data).foldl (fun acc2 m =>
        if 3 ≤ m.length then addUnique acc2 (lowerStr m) else acc2)
      ((scanMatches kebabMatchAt text.data).foldl (fun acc2 m =>
        if 3 ≤ m.length then addUnique acc2 (lowerStr m) else acc2)
      ((scanMatches camelMatchAt text.data).foldl (fun acc2 m =>
        if 3 ≤ m.length then addUnique acc2 (lowerStr m) else acc2) []))) from rfl]
    at hx
  rw [mem_foldl_addUnique (fun t => t)
    (fun t => containsSub (jsToLower text) t = true)] at hx
  rcases hx with hx | ⟨m, hm, _, rfl⟩
  · rw [mem_foldl_addUnique (fun m => lowerStr m) (fun m => 3 ≤ m.length)] at hx
    rcases hx with hx | ⟨m, _, _, rfl⟩
    · rw [mem_foldl_addUnique (fun m => lowerStr m) (fun m => 3 ≤ m.length)] at hx
      rcases hx with hx | ⟨m, _, _, rfl⟩
      · rw [mem_foldl_addUnique (fun m => lowerStr m) (fun m => 3 ≤ m.length)] at hx
        rcases hx with hx | ⟨m, _, _, rfl⟩
        · cases hx
        · exact lowerStr_fixed m
      · exact lowerStr_fixed m
    · exact lowerStr_fixed m
  · exact technicalTerms_lower _ hm

theorem parse_priority_bounds {raw : RawMemorizeParams} {p : MemorizeParams}
    (h : parseMemorizeParams raw = Except.ok p) :
    ∀ pr, p.priority = some pr → 1 ≤ pr ∧ pr ≤ 10 := by
  unfold parseMemorizeParams at h
  cases hraw : raw.text with
  | none =>
    rw [hraw] at h
    cases h
  | some t =>
    rw [hraw] at h
    simp only at h
    split at h
    · cases h
    · rcases Except.ok.inj h with rfl
      intro pr hpr
      cases hp2 : raw.priority with
      | none =>
        rw [hp2] at hpr
        cases hpr
      | some x =>
        rw [hp2] at hpr
        simp only [Option.map] at hpr
        rcases Option.some.inj hpr with rfl
        omega

theorem detectMetadata_priority {p : MemorizeParams}
    (hp : ∀ pr, p.priority = some pr → 1 ≤ pr ∧ pr ≤ 10) (chunk : String) :
    1 ≤ (detectMetadata chunk p).priority ∧ (detectMetadata chunk p).priority ≤ 10 := by
  unfold detectMetadata
  simp only
  cases hpr : p.priority with
  | none =>
    show 1 ≤ (5 : Int) ∧ (5 : Int) ≤ 10
    omega
  | some pr =>
    have := hp pr hpr
    show 1 ≤ (if pr = 0 then (5 : Int) else pr) ∧ (if pr = 0 then (5 : Int) else pr) ≤ 10
    rw [if_neg (by omega)]
    exact this

theorem detectMetadata_tags_lower (p : MemorizeParams) (chunk : String) :
    ∀ t ∈ (detectMetadata chunk p).tags, jsToLower t = t := by
  intro t ht
  unfold detectMetadata at ht
  simp only at ht
  rw [mem_foldl_addUnique_plain] at ht
  rcases ht with ht | ht
  · rcases hptags : p.tags with _ | ts
    · rw [hptags] at ht
      cases ht
    · rw [hptags] at ht
      rw [mem_foldl_addUnique_map jsToLower] at ht
      rcases ht with ht | ⟨u, _, rfl⟩
      · cases ht
      · exact jsToLower_idem u
  · exact extractTags_lower chunk t ht

theorem memorizeLoop_shape (p : MemorizeParams) (now : Nat) :
    ∀ (chunks : List String) (ids : List String) (s : Store),
      ∃ suffix : List MemoryChunk,
        (memorizeLoop p now chunks (ids, s)).2.memories = s.memories ++ suffix ∧
        (memorizeLoop p now chunks (ids, s)).2.nextId = s.nextId + chunks.length ∧
        suffix.map (fun c => c.id)
          = (List.range chunks.length).map (fun i => memId (s.nextId + i)) ∧
        (∀ c ∈ suffix,
          (∃ chunk, c.metadata = detectMetadata chunk p) ∧ c.accessCount = 0) := by
  intro chunks
  induction chunks with
  | nil =>
    intro ids s
    refine ⟨[], by simp [memorizeLoop], by simp [memorizeLoop], by simp, by simp⟩
  | cons c rest ih =>
    intro ids s
    have hstep : memorizeLoop p now (c :: rest) (ids, s)
        = memorizeLoop p now rest
            (ids ++ [(storeMemoryDb c (detectMetadata c p) now s).1.id],
             (storeMemoryDb c (detectMetadata c p) now s).2) := by
      simp [memorizeLoop]
    rw [hstep]
    obtain ⟨suffix, h1, h2, h3, h4⟩ :=
      ih (ids ++ [(storeMemoryDb c (detectMetadata c p) now s).1.id])
        (storeMemoryDb c (detectMetadata c p) now s).2
    have hs1mem : (storeMemoryDb c (detectMetadata c p) now s).2.memories
        = s.memories ++ [(storeMemoryDb c (detectMetadata c p) now s).1] := rfl
    have hs1next : (storeMemoryDb c (detectMetadata c p) now s).2.nextId
        = s.nextId + 1 := rfl
    have hnewid : (storeMemoryDb c (detectMetadata c p) now s).1.id
        = memId s.nextId := rfl
    refine ⟨(storeMemoryDb c (detectMetadata c p) now s).1 :: suffix, ?_, ?_, ?_, ?_⟩
    · rw [h1, hs1mem]
      simp
    · rw [h2, hs1next]
      simp only [List.length_cons]
      omega
    · simp only [List.map_cons, hnewid]
      rw [h3, hs1next]
      simp only [List.length_cons]
      rw [List.range_succ_eq_map]
      simp only [List.map_cons, List.map_map, Nat.add_zero]
      congr 1
      apply List.map_congr_left
      intro i _
      simp only [Function.comp_apply]
      congr 1
      omega
    · intro x hx
      rcases List.mem_cons.mp hx with rfl | hxs
      · exact ⟨⟨c, rfl⟩, rfl⟩
      · exact h4 x hxs

theorem inj_on_ids {s : Store} (hInv : Inv s) :
    ∀ c ∈ s.memories, ∀ c' ∈ s.memories, c.id = c'.id → c = c' := by
  intro c hc c' hc' hid
  exact List.inj_on_of_nodup_map hInv.2.1 hc hc' hid

theorem memorize_inv {chunkSize : Nat} {p : MemorizeParams} {now : Nat}
    {s : Store} (hp : ∀ pr, p.priority = some pr → 1 ≤ pr ∧ pr ≤ 10)
    (hInv : Inv s) :
    Inv (memorizeR chunkSize p now s).2 ∧
      AccessMono s (memorizeR chunkSize p now s).2 := by
  obtain ⟨hIds, hNod, hPrio, hTags⟩ := hInv
  unfold memorizeR
  by_cases hb : (jsTrim p.text).data.isEmpty
  · rw [if_pos hb]
    refine ⟨⟨hIds, hNod, hPrio, hTags⟩, ?_⟩
    intro c hc c' hc' hid
    have := inj_on_ids ⟨hIds, hNod, hPrio, hTags⟩ c hc c' hc' hid
    rw [this]
  · rw [if_neg hb]
    simp only
    obtain ⟨suffix, h1, h2, h3, h4⟩ :=
      memorizeLoop_shape p now (splitTextIntoChunks chunkSize p.text) [] s
    set S := (memorizeLoop p now (splitTextIntoChunks chunkSize p.text) ([], s)).2
      with hS
    have hsufid : ∀ x ∈ suffix, ∃ i, i < (splitTextIntoChunks chunkSize p.text).length
        ∧ x.id = memId (s.nextId + i) := by
      intro x hx
      have : x.id ∈ suffix.map (fun c => c.id) := List.mem_map_of_mem _ hx
      rw [h3] at this
      rcases List.mem_map.mp this with ⟨i, hi, hieq⟩
      exact ⟨i, List.mem_range.mp hi, hieq.symm⟩
    refine ⟨⟨?_, ?_, ?_, ?_⟩, ?_⟩
    · intro c hc
      rw [h1] at hc
      rw [h2]
      rcases List.mem_append.mp hc with hco | hcs
      · obtain ⟨k, hk, hkid⟩ := hIds c hco
        exact ⟨k, by omega, hkid⟩
      · obtain ⟨i, hi, hieq⟩ := hsufid c hcs
        exact ⟨s.nextId + i, by omega, hieq⟩
    · rw [h1, List.map_append]
      rw [List.nodup_append]
      refine ⟨hNod, ?_, ?_⟩
      · rw [h3]
        apply List.Nodup.map
        · intro i j hij
          have := memId_inj hij
          omega
        · exact List.nodup_range _
      · intro a ha hacontra
        rw [h3] at hacontra
        rcases List.mem_map.mp ha with ⟨c, hc, rfl⟩
        rcases List.mem_map.mp hacontra with ⟨i, _, hieq⟩
        obtain ⟨k, hk, hkid⟩ := hIds c hc
        rw [hkid] at hieq
        have := memId_inj hieq.symm
        omega
    · intro c hc
      rw [h1] at hc
      rcases List.mem_append.mp hc with hco | hcs
      · exact hPrio c hco
      · obtain ⟨⟨chunk, hmd⟩, _⟩ := h4 c hcs
        rw [hmd]
        exact detectMetadata_priority hp chunk
    · intro c hc
      rw [h1] at hc
      rcases List.mem_append.mp hc with hco | hcs
      · exact hTags c hco
      · obtain ⟨⟨chunk, hmd⟩, _⟩ := h4 c hcs
        rw [hmd]
        exact detectMetadata_tags_lower p chunk
    · intro c hc c' hc' hid
      rw [h1] at hc'
      rcases List.mem_append.mp hc' with hco | hcs
      · have := inj_on_ids ⟨hIds, hNod, hPrio, hTags⟩ c hc c' hco hid
        rw [this]
      · obtain ⟨i, _, hieq⟩ := hsufid c' hcs
        obtain ⟨k, hk, hkid⟩ := hIds c hc
        rw [hkid, hieq] at hid
        have := memId_inj hid
        omega

theorem accessMono_of_sub {s : Store} (hInv : Inv s)
    {mems : List MemoryChunk} {n : Nat}
    (hsub : ∀ c ∈ mems, c ∈ s.memories) :
    AccessMono s { memories := mems, nextId := n } := by
  intro c hc c' hc' hid
  have := inj_on_ids hInv c hc c' (hsub c' hc') hid
  rw [this]

theorem accessMono_self {s : Store} (hInv : Inv s) : AccessMono s s := by
  intro c hc c' hc' hid
  have := inj_on_ids hInv c hc c' hc' hid
  rw [this]

theorem getMemory_inv (id : String) (now : Nat) (s : Store) (hInv : Inv s) :
    Inv (getMemoryDb id now s).2 ∧ AccessMono s (getMemoryDb id now s).2 := by
  obtain ⟨hIds, hNod, hPrio, hTags⟩ := hInv
  unfold getMemoryDb
  cases hfind : s.memories.find? (fun m => m.id = id) with
  | none =>
    exact ⟨⟨hIds, hNod, hPrio, hTags⟩, accessMono_self ⟨hIds, hNod, hPrio, hTags⟩⟩
  | some m =>
    have hmid : m.id = id := by
      have := List.find?_some hfind
      simpa using this
    have hmem : m ∈ s.memories := List.mem_of_find?_eq_some hfind
    simp only
    set u : MemoryChunk :=
      { m with accessCount := m.accessCount + 1, lastAccessedAt := now, updatedAt := now }
      with hu
    have hid_pres : ∀ x : MemoryChunk,
        (if x.id = id then u else x).id = x.id := by
      intro x
      by_cases hx : x.id = id
      · rw [if_pos hx, hu]
        simp only
        rw [hmid, hx]
      · rw [if_neg hx]
    have hmapid : (s.memories.map (fun x => if x.id = id then u else x)).map
        (fun c => c.id) = s.memories.map (fun c => c.id) := by
      rw [List.map_map]
      apply List.map_congr_left
      intro x _
      exact hid_pres x
    refine ⟨⟨?_, ?_, ?_, ?_⟩, ?_⟩
    · intro c hc
      rcases List.mem_map.mp hc with ⟨x, hx, rfl⟩
      obtain ⟨k, hk, hkid⟩ := hIds x hx
      exact ⟨k, hk, by rw [hid_pres x]; exact hkid⟩
    · rw [hmapid]
      exact hNod
    · intro c hc
      rcases List.mem_map.mp hc with ⟨x, hx, rfl⟩
      by_cases hxid : x.id = id
      · rw [if_pos hxid, hu]
        exact hPrio m hmem
      · rw [if_neg hxid]
        exact hPrio x hx
    · intro c hc
      rcases List.mem_map.mp hc with ⟨x, hx, rfl⟩
      by_cases hxid : x.id = id
      · rw [if_pos hxid, hu]
        exact hTags m hmem
      · rw [if_neg hxid]
        exact hTags x hx
    · intro c hc c' hc' hcid
      rcases List.mem_map.mp hc' with ⟨x, hx, rfl⟩
      rw [hid_pres x] at hcid
      have hcx := inj_on_ids ⟨hIds, hNod, hPrio, hTags⟩ c hc x hx hcid
      subst hcx
      by_cases hxid : c.id = id
      · rw [if_pos hxid, hu]
        have hcm : c = m := inj_on_ids ⟨hIds, hNod, hPrio, hTags⟩ c hc m hmem
          (by rw [hxid, hmid])
        rw [hcm]
        simp only
        omega
      · rw [if_neg hxid]

theorem cleanupDb_state (mm : Option Nat) (s : Store) :
    (cleanupDb mm s).2.memories.Sublist s.memories ∧
      (cleanupDb mm s).2.nextId = s.nextId := by
  unfold cleanupDb
  cases mm with
  | none => exact ⟨List.Sublist.refl _, rfl⟩
  | some m =>
    dsimp only
    by_cases h0 : m = 0
    · rw [if_pos h0]
      exact ⟨List.Sublist.refl _, rfl⟩
    · rw [if_neg h0]
      by_cases hlen : s.memories.length ≤ m
      · rw [if_pos hlen]
        exact ⟨List.Sublist.refl _, rfl⟩
      · rw [if_neg hlen]
        exact ⟨List.filter_sublist _, rfl⟩

theorem cleanupOldMemoriesR_state (mm : Option Nat) (s : Store) :
    (cleanupOldMemoriesR mm s).2.memories.Sublist s.memories ∧
      (cleanupOldMemoriesR mm s).2.nextId = s.nextId := by
  unfold cleanupOldMemoriesR
  dsimp only
  split
  · exact ⟨List.Sublist.refl _, rfl⟩
  · exact cleanupDb_state _ s

theorem reorganizeR_state (p : ReorganizeParams) (s : Store) :
    (reorganizeR p s).2
      = if p.cleanupOldMemories then (cleanupOldMemoriesR p.maxMemories s).2
        else s := by
  unfold reorganizeR reorganizeWith memSubOps
  by_cases h1 : p.mergeSimilarTags <;> by_cases h2 : p.cleanupOldMemories <;>
    by_cases h3 : p.optimizeStorage <;>
    simp [h1, h2, h3, mergeSimilarTagsR]

theorem inv_of_sublist {s : Store} (hInv : Inv s) {mems : List MemoryChunk}
    (hsub : mems.Sublist s.memories) :
    Inv { memories := mems, nextId := s.nextId } := by
  obtain ⟨hIds, hNod, hPrio, hTags⟩ := hInv
  refine ⟨?_, ?_, ?_, ?_⟩
  · intro c hc
    exact hIds c (hsub.mem hc)
  · exact List.Nodup.sublist (hsub.map _) hNod
  · intro c hc
    exact hPrio c (hsub.mem hc)
  · intro c hc
    exact hTags c (hsub.mem hc)

/-- C9: every operation reachable through the MCP front end - memorize, list,
get-memory, get-tags, get-categories, get-stats and reorganize - preserves
the store invariants (counter-rendered unique ids, priority in one to ten,
lowercase-fixed tags) and never decreases any record's access count. -/
theorem frontStep_invariants (chunkSize now : Nat) (op : FrontOp) (s : Store)
    (hInv : Inv s) :
    Inv (frontStep chunkSize now op s) ∧
      AccessMono s (frontStep chunkSize now op s) := by
  cases op with
  | memorize raw =>
    unfold frontStep
    dsimp only
    cases hparse : parseMemorizeParams raw with
    | error e => exact ⟨hInv, accessMono_self hInv⟩
    | ok p => exact memorize_inv (parse_priority_bounds hparse) hInv
  | list p => exact ⟨hInv, accessMono_self hInv⟩
  | getMemory id =>
    unfold frontStep
    dsimp only
    by_cases hb : (jsTrim id).data.isEmpty
    · rw [if_pos hb]
      exact ⟨hInv, accessMono_self hInv⟩
    · rw [if_neg hb]
      exact getMemory_inv (jsTrim id) now s hInv
  | getTags => exact ⟨hInv, accessMono_self hInv⟩
  | getCategories => exact ⟨hInv, accessMono_self hInv⟩
  | getStats => exact ⟨hInv, accessMono_self hInv⟩
  | reorganize raw =>
    unfold frontStep
    dsimp only
    rw [reorganizeR_state]
    by_cases hc : (parseReorganizeParams raw).cleanupOldMemories
    · rw [if_pos hc]
      obtain ⟨hsub, hnid⟩ :=
        cleanupOldMemoriesR_state (parseReorganizeParams raw).maxMemories s
      have heta : (cleanupOldMemoriesR (parseReorganizeParams raw).maxMemories s).2
          = { memories :=
                (cleanupOldMemoriesR (parseReorganizeParams raw).maxMemories s).2.memories,
              nextId := s.nextId } := by
        rw [← hnid]
      rw [heta]
      refine ⟨inv_of_sublist hInv hsub, ?_⟩
      exact accessMono_of_sub hInv (fun c hc2 => hsub.mem hc2)
    · rw [if_neg hc]
      exact ⟨hInv, accessMono_self hInv⟩

/-- Witness for C9: one front-end step (a get-tags request) on the fresh store
preserves the invariants. -/
theorem frontStep_invariants_witness :
    Inv (frontStep 500 0 FrontOp.getTags emptyStore) ∧
      AccessMono emptyStore (frontStep 500 0 FrontOp.getTags emptyStore) :=
  frontStep_invariants 500 0 FrontOp.getTags emptyStore
    ⟨fun c hc => absurd hc (by simp [emptyStore]),
     by simp [emptyStore],
     fun c hc => absurd hc (by simp [emptyStore]),
     fun c hc => absurd hc (by simp [emptyStore])⟩

end DzMemory
